import Mathlib

/-!
Verification of the Huffman compressor/decompressor (huff/puff).

The definitions below are a shallow embedding of the C/C++ sources:
`CodeTree.c` / `CodeTree.cpp` (tree construction, code derivation, the
decoding walker), `huff.c` / `huff.cpp` (the compression loop) and
`puff.c` / `puff.cpp` (the decompression loop).  Machine `long` counts
are modelled as `Nat` (all weights are non-negative byte counts, far
below `LONG_MAX`), the bit streams as `List Bool` (`true` = bit 1) and
the pointer-linked `CodeTreeNode` structure as an inductive tree whose
two-children `node` constructor mirrors the fact that the source always
assigns both `less` and `more` on every internal node it creates.
-/

set_option maxRecDepth 8000

namespace Huffman

/-- Embedding of `CodeTreeNode`: either one of the 256 original leaves
(keeping its byte value, which the C code recovers by pointer arithmetic
`current - tree->leaves`) or an internal merge node with its two children
`less` and `more`.  The `count` field is stored in both constructors. -/
inductive HTree : Type where
  | leaf (sym : Nat) (count : Nat)
  | node (count : Nat) (less : HTree) (more : HTree)
deriving DecidableEq

/-- The `count` field of a node. -/
def HTree.count : HTree → Nat
  | .leaf _ c => c
  | .node c _ _ => c

/-- The `less` child pointer (`NULL`, i.e. `none`, on leaves). -/
def HTree.lessChild : HTree → Option HTree
  | .leaf _ _ => none
  | .node _ l _ => some l

/-- The `more` child pointer (`NULL`, i.e. `none`, on leaves). -/
def HTree.moreChild : HTree → Option HTree
  | .leaf _ _ => none
  | .node _ _ m => some m

/-- The byte values of the leaves of a subtree, left to right. -/
def syms : HTree → List Nat
  | .leaf s _ => [s]
  | .node _ l m => syms l ++ syms m

/-- The scan state of `find_smallest`: the current smallest and
next-smallest values and their indices.  `none` plays the role of the
`LONG_MAX` sentinel (every real count compares below it); the index
fields start at 0 standing for the source's indeterminate initial
values, which the scan overwrites before they are ever used whenever at
least two active slots exist. -/
structure FSState : Type where
  sv : Option Nat
  si : Nat
  nsv : Option Nat
  nsi : Nat
deriving DecidableEq

/-- `c < v` where `v = none` stands for `LONG_MAX`. -/
def ltSentinel (c : Nat) : Option Nat → Bool
  | none => true
  | some v => decide (c < v)

/-- One iteration of the `find_smallest` loop body at index `k`. -/
def fsStep (k : Nat) (s : FSState) : Option HTree → FSState
  | none => s
  | some t =>
    if ltSentinel t.count s.sv then ⟨some t.count, k, s.sv, s.si⟩
    else if ltSentinel t.count s.nsv then ⟨s.sv, s.si, some t.count, k⟩
    else s

/-- The `find_smallest` scan over the remaining slots, `k` being the
index of the first slot of `rest`. -/
def fsGo : Nat → FSState → List (Option HTree) → FSState
  | _, s, [] => s
  | k, s, o :: rest => fsGo (k + 1) (fsStep k s o) rest

/-- `find_smallest` (CodeTree.c:37, CodeTree.cpp:219): scan the active
slots left to right and return the indices of the smallest and
next-smallest counts. -/
def find_smallest (st : List (Option HTree)) : Nat × Nat :=
  let s := fsGo 0 ⟨none, 0, none, 0⟩ st
  (s.si, s.nsi)

/-- The child assignment of the merge loop (CodeTree.c:189-202,
CodeTree.cpp:133-146): when the two counts differ, `less` points at the
node found by the scan's "smallest" index and `more` at the
"next-smallest" one; when they are equal, `less` points at the node in
the lower-numbered active slot. -/
def merge_node (si nsi : Nat) (a b : HTree) : HTree :=
  if a.count ≠ b.count then HTree.node (a.count + b.count) a b
  else if si < nsi then HTree.node (a.count + b.count) a b
  else HTree.node (a.count + b.count) b a

/-- The `actives` adjustment (CodeTree.c:204-216, CodeTree.cpp:148-160):
the new node is stored at the smaller of the two slot indices and the
other slot is cleared. -/
def store_new (st : List (Option HTree)) (si nsi : Nat) (v : HTree) :
    List (Option HTree) :=
  if si < nsi then (st.set si (some v)).set nsi none
  else (st.set nsi (some v)).set si none

/-- One iteration of the `build_tree` merge loop
(CodeTree.c:169-220, CodeTree.cpp:114-164).  The state is the `actives`
array paired with the current `root` pointer.  The final catch-all
branch is unreachable in the source (there the slot lookups are raw
pointer dereferences); it is only there to make the function total. -/
def build_step (p : List (Option HTree) × Option HTree) :
    List (Option HTree) × Option HTree :=
  let st := p.1
  let fs := find_smallest st
  match st.getD fs.1 none, st.getD fs.2 none with
  | some a, some b =>
    (store_new st fs.1 fs.2 (merge_node fs.1 fs.2 a b),
      some (merge_node fs.1 fs.2 a b))
  | _, _ => p

/-- The initial `actives` array: slot `i` holds leaf `i` with weight
`f i` (CodeTree_initialize / the CodeTree constructor). -/
def init_actives (f : Nat → Nat) : List (Option HTree) :=
  (List.range 256).map (fun i => some (HTree.leaf i (f i)))

/-- `build_tree`: the merge loop runs `item_count` from 256 down to 2,
i.e. exactly 255 iterations, and the root is the last node created. -/
def build_tree (f : Nat → Nat) : Option HTree :=
  (build_step^[255] (init_actives f, none)).2

/-- The built tree with the (never used) default for the `none` case,
which the development proves impossible. -/
def tree_of (f : Nat → Nat) : HTree :=
  (build_tree f).getD (HTree.leaf 0 0)

/-- The leaf-to-root walk of `build_codes` (CodeTree.c:227,
CodeTree.cpp:171) expressed over the structural tree: the parent-pointer
walk from leaf `s` appends one bit per edge starting with the edge at
the leaf (`true` when the previous node was the `more` child), which is
exactly the root-to-leaf path in reverse; on the inductive tree the walk
is realised by locating leaf `s` and collecting the edge bits with the
root edge last. -/
def walk_code : HTree → Nat → Option (List Bool)
  | .leaf s' _, s => if s' = s then some [] else none
  | .node _ l m, s =>
    match walk_code l s with
    | some p => some (p ++ [false])
    | none =>
      match walk_code m s with
      | some p => some (p ++ [true])
      | none => none

/-- `build_codes` for one symbol: the accumulated bits are reversed
(`string_reverse` / `std::reverse` in the source); a symbol absent from
the tree keeps its initial empty code. -/
def build_codes (t : HTree) (s : Nat) : List Bool :=
  ((walk_code t s).map List.reverse).getD []

/-- The root-to-leaf path of symbol `s`: the reversal of `walk_code`. -/
def find_path : HTree → Nat → Option (List Bool)
  | .leaf s' _, s => if s' = s then some [] else none
  | .node _ l m, s =>
    match find_path l s with
    | some p => some (false :: p)
    | none =>
      match find_path m s with
      | some p => some (true :: p)
      | none => none

/-- The frequency histogram built by the `analysis` loop of huff:
one `increment(ch)` per input byte. -/
def histo (x : List Nat) : Nat → Nat := fun s => x.count s

/-- `get_count_total`: the sum of the 256 leaf counts. -/
def get_count_total (f : Nat → Nat) : Nat :=
  ((List.range 256).map f).sum

/-- The compression loop of `huff` (huff.c:99, huff.cpp:103): each input
byte's code is emitted bit by bit into the sink. -/
def compress (f : Nat → Nat) (x : List Nat) : List Bool :=
  x.flatMap (fun ch => build_codes (tree_of f) ch)

/-- `Walker::process_bit` (CodeTree.cpp:259): bit 1 moves to the `more`
child, bit 0 to the `less` child.  On a leaf both pointers are `NULL`;
the `none` result models the null pointer the C code would store. -/
def process_bit (cur : HTree) (bit : Bool) : Option HTree :=
  if bit then cur.moreChild else cur.lessChild

/-- `Walker::code_finished` (CodeTree.cpp:247): on an internal node
(`more != NULL`) report -1 (`none`); on a leaf report the leaf's byte
value (recovered in the source as `current - tree->leaves`) — the walker
then resets `current` to the root, which `decode_loop` models by passing
`root` on. -/
def code_finished : HTree → Option Nat
  | .leaf s _ => some s
  | .node _ _ _ => none

/-- The decompression loop of `puff` (puff.c:87, puff.cpp:91): read a
bit, advance the walker, and whenever a code completes emit the byte and
stop once `count` reaches `total_count`.  The `none` branch of
`process_bit` is the null dereference the C code would commit after
stepping off a leaf; it never arises because the built root is internal. -/
def decode_loop (root : HTree) : HTree → Nat → Nat → List Bool → List Nat
  | _, _, _, [] => []
  | cur, count, total, b :: bs =>
    match process_bit cur b with
    | none => []
    | some cur2 =>
      match code_finished cur2 with
      | some sym =>
        if count + 1 = total then [sym]
        else sym :: decode_loop root root (count + 1) total bs
      | none => decode_loop root cur2 count total bs

/-- `decompress`: walk the tree rebuilt from the deserialized frequency
table, stopping after `get_count_total` emitted bytes. -/
def decompress (f : Nat → Nat) (bits : List Bool) : List Nat :=
  decode_loop (tree_of f) (tree_of f) 0 (get_count_total f) bits

/-- The active (non-`NULL`) entries of the `actives` array, in slot
order. -/
def activeTrees (st : List (Option HTree)) : List HTree :=
  st.filterMap id

/-- Number of active slots. -/
def numActive (st : List (Option HTree)) : Nat :=
  (activeTrees st).length

/-- The multiset of leaf symbols across all active subtrees. -/
def symsAll (st : List (Option HTree)) : Multiset Nat :=
  ((activeTrees st).map (fun t => (syms t : Multiset Nat))).sum

/-- The count stored in active slot `j` (`none` when the slot is
inactive or out of range). -/
def actWeight (st : List (Option HTree)) (j : Nat) : Option Nat :=
  (st.getD j none).map HTree.count

/-- Number of internal (merge) nodes of a tree. -/
def internals : HTree → Nat
  | .leaf _ _ => 0
  | .node _ l m => internals l + internals m + 1

/-- Number of leaves of a tree. -/
def leafCount : HTree → Nat
  | .leaf _ _ => 1
  | .node _ l m => leafCount l + leafCount m

/-- Number of children of the topmost node. -/
def childArity : HTree → Nat
  | .leaf _ _ => 0
  | .node _ _ _ => 2

/-- All subtrees (every node of the tree, including itself). -/
def subtrees : HTree → List HTree
  | .leaf s c => [HTree.leaf s c]
  | .node c l m => HTree.node c l m :: (subtrees l ++ subtrees m)

/-- State of the `actives` array after `k` merges: 256 slots, `256 - k`
of them active, and the active subtrees' leaves partition the 256
symbols. -/
structure BInv (k : Nat) (st : List (Option HTree)) : Prop where
  len : st.length = 256
  act : numActive st = 256 - k
  sym : symsAll st = ((List.range 256 : List Nat) : Multiset Nat)

/-!  ## The concrete scenario of the specification

The input byte sequence `A A A A A A B B B C C` (A = 0x41 = 65, B = 66,
C = 67) and the intermediate states of `build_tree` on its histogram.
The 253 zero-count byte values take part in the merging: the first 252
merges fold them into a single weight-0 chain (`zchain`, then
`zchain2`), which then merges with C, B and finally A. -/
def xC4 : List Nat := [65, 65, 65, 65, 65, 65, 66, 66, 66, 67, 67]

def fC4 : Nat → Nat := histo xC4

/-- The weight-0 chain over leaves `0..k` built by the first `k`
merges. -/
def zchain : Nat → HTree
  | 0 => HTree.leaf 0 0
  | k + 1 => HTree.node 0 (zchain k) (HTree.leaf (k + 1) 0)

/-- The weight-0 chain over leaves `0..64` and `68..67+m` built by the
first `252` merges (its second regime absorbs leaves `68..255`). -/
def zchain2 : Nat → HTree
  | 0 => zchain 64
  | m + 1 => HTree.node 0 (zchain2 m) (HTree.leaf (68 + m) 0)

def zleaf (i : Nat) : Option HTree := some (HTree.leaf i 0)

/-- `actives` after `k` merges, `0 ≤ k ≤ 64`. -/
def state1 (k : Nat) : List (Option HTree) :=
  some (zchain k) :: (List.replicate k none
    ++ ((List.range' (k + 1) (64 - k)).map zleaf
    ++ ([some (HTree.leaf 65 6), some (HTree.leaf 66 3), some (HTree.leaf 67 2)]
    ++ (List.range' 68 188).map zleaf)))

/-- `actives` after `64 + m` merges, `0 ≤ m ≤ 188`. -/
def state2 (m : Nat) : List (Option HTree) :=
  some (zchain2 m) :: (List.replicate 64 none
    ++ ([some (HTree.leaf 65 6), some (HTree.leaf 66 3), some (HTree.leaf 67 2)]
    ++ (List.replicate m none ++ (List.range' (68 + m) (188 - m)).map zleaf)))

/-- `actives` after 253 merges (the zero chain has absorbed C). -/
def state3 : List (Option HTree) :=
  some (HTree.node 2 (zchain2 188) (HTree.leaf 67 2)) :: (List.replicate 64 none
    ++ ([some (HTree.leaf 65 6), some (HTree.leaf 66 3), none]
    ++ List.replicate 188 none))

/-- `actives` after 254 merges (B absorbed). -/
def state4 : List (Option HTree) :=
  some (HTree.node 5 (HTree.node 2 (zchain2 188) (HTree.leaf 67 2))
      (HTree.leaf 66 3)) :: (List.replicate 64 none
    ++ ([some (HTree.leaf 65 6), none, none] ++ List.replicate 188 none))

/-- The tree `build_tree` constructs from the scenario histogram. -/
def rootC4 : HTree :=
  HTree.node 11 (HTree.node 5 (HTree.node 2 (zchain2 188) (HTree.leaf 67 2))
    (HTree.leaf 66 3)) (HTree.leaf 65 6)

/-- `actives` after all 255 merges. -/
def state5 : List (Option HTree) :=
  some rootC4 :: (List.replicate 64 none
    ++ ([none, none, none] ++ List.replicate 188 none))

/-- The degenerate frequency table with a single non-zero entry. -/
def f0 : Nat → Nat := fun i => if i = 0 then 1 else 0

/-- The all-zero frequency table. -/
def fzero : Nat → Nat := fun _ => 0

/-- A small active set exercising the scan (weights 5, 3, gap, 3). -/
def sampleSt : List (Option HTree) :=
  [some (HTree.leaf 0 5), some (HTree.leaf 1 3), none, some (HTree.leaf 3 3)]

/-- A small active set with an equal-weight tie (weights 4, 4, 3). -/
def tieSt : List (Option HTree) :=
  [some (HTree.leaf 0 4), some (HTree.leaf 1 4), some (HTree.leaf 2 3)]

/-!  ## The `find_smallest` scan invariant

`FSInv pre s` describes the scan state after the slots in `pre` have been
processed: either no active slot has been seen, or exactly one, or at
least two — in which case `si` is the lowest-indexed slot holding the
minimum weight and `nsi` the lowest-indexed other slot holding the
minimum weight among the slots other than `si`. -/
def FSInv (pre : List (Option HTree)) (s : FSState) : Prop :=
  (s.sv = none ∧ s.nsv = none ∧ ∀ j, actWeight pre j = none)
  ∨ (∃ w, s.sv = some w ∧ s.nsv = none ∧ actWeight pre s.si = some w ∧
      ∀ j, j ≠ s.si → actWeight pre j = none)
  ∨ (∃ w v, s.sv = some w ∧ s.nsv = some v ∧
      actWeight pre s.si = some w ∧
      (∀ j c, actWeight pre j = some c → w ≤ c) ∧
      (∀ j c, j < s.si → actWeight pre j = some c → w < c) ∧
      s.nsi ≠ s.si ∧ actWeight pre s.nsi = some v ∧
      (∀ j c, j ≠ s.si → actWeight pre j = some c → v ≤ c) ∧
      (∀ j c, j < s.nsi → j ≠ s.si → actWeight pre j = some c → v < c))

end Huffman

namespace Huffman

lemma actWeight_nil (j : Nat) : actWeight [] j = none := by
  simp [actWeight]

lemma actWeight_lt_length {pre : List (Option HTree)} {j : Nat} {w : Nat}
    (h : actWeight pre j = some w) : j < pre.length := by
  by_contra hj
  have hle : pre.length ≤ j := Nat.le_of_not_lt hj
  simp [actWeight, List.getD, List.getElem?_eq_none hle] at h

lemma actWeight_append_lt {pre l2 : List (Option HTree)} {j : Nat}
    (h : j < pre.length) : actWeight (pre ++ l2) j = actWeight pre j := by
  simp [actWeight, List.getD, List.getElem?_append_left h]

lemma actWeight_append_self (pre l2 : List (Option HTree)) (o : Option HTree) :
    actWeight (pre ++ o :: l2) pre.length = o.map HTree.count := by
  simp [actWeight, List.getD, List.getElem?_append_right (Nat.le_refl pre.length)]

lemma actWeight_singleton_append_beyond {pre : List (Option HTree)}
    {o : Option HTree} {j : Nat} (h : pre.length < j) :
    actWeight (pre ++ [o]) j = none := by
  have hle : (pre ++ [o]).length ≤ j := by
    simpa using Nat.succ_le_of_lt h
  simp [actWeight, List.getD, List.getElem?_eq_none hle]

lemma ltSentinel_none (c : Nat) : ltSentinel c none = true := rfl

lemma ltSentinel_some (c v : Nat) : ltSentinel c (some v) = decide (c < v) := rfl

lemma actWeight_append_of {pre : List (Option HTree)} {j c : Nat}
    (l2 : List (Option HTree)) (h : actWeight pre j = some c) :
    actWeight (pre ++ l2) j = some c := by
  rw [actWeight_append_lt (actWeight_lt_length h)]; exact h

lemma actWeight_append_some_self (pre : List (Option HTree)) (t : HTree) :
    actWeight (pre ++ [some t]) pre.length = some t.count := by
  simpa using actWeight_append_self pre [] (some t)

lemma actWeight_append_cases {pre : List (Option HTree)} {o : Option HTree}
    {j c : Nat} (h : actWeight (pre ++ [o]) j = some c) :
    (j < pre.length ∧ actWeight pre j = some c)
      ∨ (j = pre.length ∧ o.map HTree.count = some c) := by
  rcases Nat.lt_trichotomy j pre.length with hj | hj | hj
  · exact Or.inl ⟨hj, by rwa [actWeight_append_lt hj] at h⟩
  · refine Or.inr ⟨hj, ?_⟩
    subst hj
    rwa [show pre ++ [o] = pre ++ o :: [] from rfl,
      actWeight_append_self pre [] o] at h
  · rw [actWeight_singleton_append_beyond hj] at h
    cases h

lemma fsStep_none (n : Nat) (s : FSState) : fsStep n s none = s := rfl

lemma fsStep_some_new (n : Nat) (s : FSState) (t : HTree)
    (h : ltSentinel t.count s.sv = true) :
    fsStep n s (some t) = ⟨some t.count, n, s.sv, s.si⟩ := by
  simp [fsStep, h]

lemma fsStep_some_second (n : Nat) (s : FSState) (t : HTree)
    (h1 : ltSentinel t.count s.sv = false)
    (h2 : ltSentinel t.count s.nsv = true) :
    fsStep n s (some t) = ⟨s.sv, s.si, some t.count, n⟩ := by
  simp [fsStep, h1, h2]

lemma fsStep_some_keep (n : Nat) (s : FSState) (t : HTree)
    (h1 : ltSentinel t.count s.sv = false)
    (h2 : ltSentinel t.count s.nsv = false) :
    fsStep n s (some t) = s := by
  simp [fsStep, h1, h2]

lemma fsStep_inv {pre : List (Option HTree)} {s : FSState} (o : Option HTree)
    (h : FSInv pre s) : FSInv (pre ++ [o]) (fsStep pre.length s o) := by
  match o with
  | none =>
    rw [fsStep_none]
    rcases h with ⟨h1, h2, h3⟩ | ⟨w, h1, h2, h3, h4⟩ |
      ⟨w, v, h1, h2, h3, h4, h5, h6, h7, h8, h9⟩
    · refine Or.inl ⟨h1, h2, ?_⟩
      intro j
      rcases Nat.lt_trichotomy j pre.length with hj | hj | hj
      · rw [actWeight_append_lt hj]; exact h3 j
      · subst hj
        simpa using actWeight_append_self pre [] none
      · exact actWeight_singleton_append_beyond hj
    · refine Or.inr (Or.inl ⟨w, h1, h2, actWeight_append_of _ h3, ?_⟩)
      intro j hj
      rcases Nat.lt_trichotomy j pre.length with hlt | hlt | hlt
      · rw [actWeight_append_lt hlt]; exact h4 j hj
      · subst hlt
        simpa using actWeight_append_self pre [] none
      · exact actWeight_singleton_append_beyond hlt
    · refine Or.inr (Or.inr ⟨w, v, h1, h2, actWeight_append_of _ h3, ?_, ?_, h6,
        actWeight_append_of _ h7, ?_, ?_⟩)
      · intro j c hw
        rcases actWeight_append_cases hw with ⟨_, hw2⟩ | ⟨_, hw2⟩
        · exact h4 j c hw2
        · cases hw2
      · intro j c hj hw
        rcases actWeight_append_cases hw with ⟨_, hw2⟩ | ⟨_, hw2⟩
        · exact h5 j c hj hw2
        · cases hw2
      · intro j c hj hw
        rcases actWeight_append_cases hw with ⟨_, hw2⟩ | ⟨_, hw2⟩
        · exact h8 j c hj hw2
        · cases hw2
      · intro j c hj hne hw
        rcases actWeight_append_cases hw with ⟨_, hw2⟩ | ⟨_, hw2⟩
        · exact h9 j c hj hne hw2
        · cases hw2
  | some t =>
    rcases h with ⟨h1, h2, h3⟩ | ⟨w, h1, h2, h3, h4⟩ |
      ⟨w, v, h1, h2, h3, h4, h5, h6, h7, h8, h9⟩
    · -- no active slot seen yet: the new element becomes the minimum
      rw [fsStep_some_new _ _ _ (by rw [h1]; rfl)]
      dsimp only [FSInv]
      refine Or.inr (Or.inl ⟨t.count, rfl, h1, ?_, ?_⟩)
      · exact actWeight_append_some_self pre t
      · intro j hj
        rcases Nat.lt_trichotomy j pre.length with hlt | hlt | hlt
        · rw [actWeight_append_lt hlt]; exact h3 j
        · exact absurd hlt hj
        · exact actWeight_singleton_append_beyond hlt
    · -- exactly one active slot seen, at s.si with weight w
      have hsi : s.si < pre.length := actWeight_lt_length h3
      by_cases hc : t.count < w
      · -- the new element displaces the single minimum
        rw [fsStep_some_new _ _ _ (by rw [h1, ltSentinel_some]; simpa using hc)]
        dsimp only [FSInv]
        refine Or.inr (Or.inr ⟨t.count, w, rfl, h1, ?_, ?_, ?_,
          Nat.ne_of_lt hsi, actWeight_append_of _ h3, ?_, ?_⟩)
        · exact actWeight_append_some_self pre t
        · intro j c hw
          rcases actWeight_append_cases hw with ⟨_, hw2⟩ | ⟨_, hw2⟩
          · rcases eq_or_ne j s.si with rfl | hne
            · rw [h3] at hw2
              cases hw2
              exact Nat.le_of_lt hc
            · rw [h4 j hne] at hw2; cases hw2
          · simp at hw2
            omega
        · intro j c hj hw
          rcases actWeight_append_cases hw with ⟨hlt, hw2⟩ | ⟨heq, hw2⟩
          · rcases eq_or_ne j s.si with rfl | hne
            · rw [h3] at hw2; cases hw2; exact hc
            · rw [h4 j hne] at hw2; cases hw2
          · omega
        · intro j c hj hw
          rcases actWeight_append_cases hw with ⟨_, hw2⟩ | ⟨heq, hw2⟩
          · rcases eq_or_ne j s.si with rfl | hne
            · rw [h3] at hw2; cases hw2; exact Nat.le_refl w
            · rw [h4 j hne] at hw2; cases hw2
          · exact absurd heq hj
        · intro j c hj hne hw
          rcases actWeight_append_cases hw with ⟨hlt, hw2⟩ | ⟨heq, hw2⟩
          · have : j ≠ s.si := Nat.ne_of_lt hj
            rw [h4 j this] at hw2; cases hw2
          · omega
      · -- the new element becomes the second smallest
        rw [fsStep_some_second _ _ _ (by rw [h1, ltSentinel_some]; simpa using hc)
          (by rw [h2]; rfl)]
        dsimp only [FSInv]
        refine Or.inr (Or.inr ⟨w, t.count, h1, rfl,
          actWeight_append_of _ h3, ?_, ?_, (Nat.ne_of_lt hsi).symm,
          actWeight_append_some_self pre t, ?_, ?_⟩)
        · intro j c hw
          rcases actWeight_append_cases hw with ⟨_, hw2⟩ | ⟨_, hw2⟩
          · rcases eq_or_ne j s.si with rfl | hne
            · rw [h3] at hw2; cases hw2; exact Nat.le_refl w
            · rw [h4 j hne] at hw2; cases hw2
          · simp at hw2
            omega
        · intro j c hj hw
          rcases actWeight_append_cases hw with ⟨_, hw2⟩ | ⟨heq, hw2⟩
          · have : j ≠ s.si := Nat.ne_of_lt hj
            rw [h4 j this] at hw2; cases hw2
          · omega
        · intro j c hj hw
          rcases actWeight_append_cases hw with ⟨_, hw2⟩ | ⟨heq, hw2⟩
          · rcases eq_or_ne j s.si with rfl | hne
            · exact absurd rfl hj
            · rw [h4 j hne] at hw2; cases hw2
          · simp at hw2
            omega
        · intro j c hj hne hw
          rcases actWeight_append_cases hw with ⟨hlt, hw2⟩ | ⟨heq, hw2⟩
          · rw [h4 j hne] at hw2; cases hw2
          · omega
    · -- at least two active slots seen
      have hsi : s.si < pre.length := actWeight_lt_length h3
      have hnsi : s.nsi < pre.length := actWeight_lt_length h7
      have hwv : w ≤ v := h4 s.nsi v h7
      by_cases hc : t.count < w
      · -- strictly new minimum: displaces, old minimum demoted
        rw [fsStep_some_new _ _ _ (by rw [h1, ltSentinel_some]; simpa using hc)]
        dsimp only [FSInv]
        refine Or.inr (Or.inr ⟨t.count, w, rfl, h1, ?_, ?_, ?_,
          Nat.ne_of_lt hsi, actWeight_append_of _ h3, ?_, ?_⟩)
        · exact actWeight_append_some_self pre t
        · intro j c hw
          rcases actWeight_append_cases hw with ⟨_, hw2⟩ | ⟨_, hw2⟩
          · exact Nat.le_of_lt (Nat.lt_of_lt_of_le hc (h4 j c hw2))
          · simp at hw2
            omega
        · intro j c hj hw
          rcases actWeight_append_cases hw with ⟨_, hw2⟩ | ⟨heq, hw2⟩
          · exact Nat.lt_of_lt_of_le hc (h4 j c hw2)
          · omega
        · intro j c hj hw
          rcases actWeight_append_cases hw with ⟨_, hw2⟩ | ⟨heq, hw2⟩
          · exact h4 j c hw2
          · exact absurd heq hj
        · intro j c hj hne hw
          rcases actWeight_append_cases hw with ⟨hlt, hw2⟩ | ⟨heq, hw2⟩
          · exact h5 j c hj hw2
          · omega
      · by_cases hc2 : t.count < v
        · -- between the two: replaces the second smallest
          rw [fsStep_some_second _ _ _
            (by rw [h1, ltSentinel_some]; simpa using hc)
            (by rw [h2, ltSentinel_some]; simpa using hc2)]
          dsimp only [FSInv]
          refine Or.inr (Or.inr ⟨w, t.count, h1, rfl,
            actWeight_append_of _ h3, ?_, ?_, (Nat.ne_of_lt hsi).symm,
            actWeight_append_some_self pre t, ?_, ?_⟩)
          · intro j c hw
            rcases actWeight_append_cases hw with ⟨_, hw2⟩ | ⟨_, hw2⟩
            · exact h4 j c hw2
            · simp at hw2
              omega
          · intro j c hj hw
            rcases actWeight_append_cases hw with ⟨_, hw2⟩ | ⟨heq, hw2⟩
            · exact h5 j c hj hw2
            · omega
          · intro j c hj hw
            rcases actWeight_append_cases hw with ⟨_, hw2⟩ | ⟨_, hw2⟩
            · exact Nat.le_of_lt (Nat.lt_of_lt_of_le hc2 (h8 j c hj hw2))
            · simp at hw2
              omega
          · intro j c hj hne hw
            rcases actWeight_append_cases hw with ⟨hlt, hw2⟩ | ⟨heq, hw2⟩
            · exact Nat.lt_of_lt_of_le hc2 (h8 j c hne hw2)
            · omega
        · -- no smaller than either: state unchanged
          rw [fsStep_some_keep _ _ _
            (by rw [h1, ltSentinel_some]; simpa using hc)
            (by rw [h2, ltSentinel_some]; simpa using hc2)]
          refine Or.inr (Or.inr ⟨w, v, h1, h2, actWeight_append_of _ h3, ?_, ?_,
            h6, actWeight_append_of _ h7, ?_, ?_⟩)
          · intro j c hw
            rcases actWeight_append_cases hw with ⟨_, hw2⟩ | ⟨_, hw2⟩
            · exact h4 j c hw2
            · simp at hw2
              omega
          · intro j c hj hw
            rcases actWeight_append_cases hw with ⟨_, hw2⟩ | ⟨heq, hw2⟩
            · exact h5 j c hj hw2
            · omega
          · intro j c hj hw
            rcases actWeight_append_cases hw with ⟨_, hw2⟩ | ⟨_, hw2⟩
            · exact h8 j c hj hw2
            · simp at hw2
              omega
          · intro j c hj hne hw
            rcases actWeight_append_cases hw with ⟨hlt, hw2⟩ | ⟨heq, hw2⟩
            · exact h9 j c hj hne hw2
            · omega

lemma fsGo_inv : ∀ (rest pre : List (Option HTree)) (s : FSState),
    FSInv pre s → FSInv (pre ++ rest) (fsGo pre.length s rest) := by
  intro rest
  induction rest with
  | nil =>
    intro pre s h
    simpa [fsGo] using h
  | cons o rest ih =>
    intro pre s h
    have h1 := fsStep_inv o h
    have h2 := ih (pre ++ [o]) _ h1
    simpa [fsGo, List.append_assoc] using h2

lemma actWeight_eq_some {st : List (Option HTree)} {j c : Nat} :
    actWeight st j = some c ↔ ∃ a, st.getD j none = some a ∧ a.count = c := by
  simp [actWeight]

/-- Full characterisation of `find_smallest` on an active set with at
least two active slots: the first returned index is the lowest-indexed
slot holding the globally smallest weight; the second returned index is
a different slot, holding the smallest weight among all slots other than
the first, and is the lowest-indexed such slot. -/
theorem find_smallest_spec (st : List (Option HTree))
    (h2 : ∃ i j wi wj, i ≠ j ∧ actWeight st i = some wi ∧ actWeight st j = some wj) :
    ∃ wmin w2,
      actWeight st (find_smallest st).1 = some wmin ∧
      (∀ j c, actWeight st j = some c → wmin ≤ c) ∧
      (∀ j c, j < (find_smallest st).1 → actWeight st j = some c → wmin < c) ∧
      (find_smallest st).2 ≠ (find_smallest st).1 ∧
      actWeight st (find_smallest st).2 = some w2 ∧
      (∀ j c, j ≠ (find_smallest st).1 → actWeight st j = some c → w2 ≤ c) ∧
      (∀ j c, j < (find_smallest st).2 → j ≠ (find_smallest st).1 →
        actWeight st j = some c → w2 < c) := by
  have base : FSInv [] ⟨none, 0, none, 0⟩ := Or.inl ⟨rfl, rfl, fun j => actWeight_nil j⟩
  have h := fsGo_inv st [] _ base
  rw [List.nil_append] at h
  simp only [find_smallest]
  rcases h with ⟨c1, c2, c3⟩ | ⟨w, e1, e2, e3, e4⟩ |
    ⟨w, v, e1, e2, e3, e4, e5, e6, e7, e8, e9⟩
  · obtain ⟨i, j, wi, wj, _, hi, _⟩ := h2
    rw [c3 i] at hi; cases hi
  · obtain ⟨i, j, wi, wj, hij, hi, hj⟩ := h2
    by_cases hik : i = (fsGo 0 ⟨none, 0, none, 0⟩ st).si
    · by_cases hjk : j = (fsGo 0 ⟨none, 0, none, 0⟩ st).si
      · exact absurd (hik.trans hjk.symm) hij
      · rw [e4 j hjk] at hj; cases hj
    · rw [e4 i hik] at hi; cases hi
  · exact ⟨w, v, e3, e4, e5, e6, e7, e8, e9⟩

/-!  ## Bookkeeping for the `actives` array -/

lemma activeTrees_cons_some (t : HTree) (rest : List (Option HTree)) :
    activeTrees (some t :: rest) = t :: activeTrees rest := by
  simp [activeTrees]

lemma activeTrees_cons_none (rest : List (Option HTree)) :
    activeTrees (none :: rest) = activeTrees rest := by
  simp [activeTrees]

lemma symsAll_cons_some (t : HTree) (rest : List (Option HTree)) :
    symsAll (some t :: rest) = (syms t : Multiset Nat) + symsAll rest := by
  simp [symsAll, activeTrees_cons_some]

lemma symsAll_cons_none (rest : List (Option HTree)) :
    symsAll (none :: rest) = symsAll rest := by
  simp [symsAll, activeTrees_cons_none]

lemma numActive_cons_some (t : HTree) (rest : List (Option HTree)) :
    numActive (some t :: rest) = numActive rest + 1 := by
  simp [numActive, activeTrees_cons_some]

lemma numActive_cons_none (rest : List (Option HTree)) :
    numActive (none :: rest) = numActive rest := by
  simp [numActive, activeTrees_cons_none]

lemma actWeight_cons_succ (o : Option HTree) (rest : List (Option HTree)) (j : Nat) :
    actWeight (o :: rest) (j + 1) = actWeight rest j := by
  simp [actWeight, List.getD]

lemma actWeight_cons_zero (o : Option HTree) (rest : List (Option HTree)) :
    actWeight (o :: rest) 0 = o.map HTree.count := by
  simp [actWeight, List.getD]

lemma symsAll_set_some {st : List (Option HTree)} {i : Nat} {a : HTree}
    (h : st.getD i none = some a) (t : HTree) :
    symsAll (st.set i (some t)) + (syms a : Multiset Nat)
      = symsAll st + (syms t : Multiset Nat) := by
  induction st generalizing i with
  | nil => simp [List.getD] at h
  | cons o rest ih =>
    match i with
    | 0 =>
      have ho : o = some a := by simpa [List.getD] using h
      subst ho
      simp only [List.set_cons_zero, symsAll_cons_some]
      abel
    | i + 1 =>
      have h2 : rest.getD i none = some a := by simpa [List.getD] using h
      have := ih h2
      match o with
      | some u =>
        simp only [List.set_cons_succ, symsAll_cons_some]
        calc (syms u : Multiset Nat) + symsAll (rest.set i (some t)) + syms a
            = (syms u : Multiset Nat) + (symsAll (rest.set i (some t)) + syms a) := by abel
          _ = (syms u : Multiset Nat) + (symsAll rest + syms t) := by rw [this]
          _ = (syms u : Multiset Nat) + symsAll rest + syms t := by abel
      | none =>
        simpa [List.set_cons_succ, symsAll_cons_none] using this

lemma symsAll_set_none {st : List (Option HTree)} {i : Nat} {a : HTree}
    (h : st.getD i none = some a) :
    symsAll (st.set i none) + (syms a : Multiset Nat) = symsAll st := by
  induction st generalizing i with
  | nil => simp [List.getD] at h
  | cons o rest ih =>
    match i with
    | 0 =>
      have ho : o = some a := by simpa [List.getD] using h
      subst ho
      simp only [List.set_cons_zero, symsAll_cons_none, symsAll_cons_some]
      abel
    | i + 1 =>
      have h2 : rest.getD i none = some a := by simpa [List.getD] using h
      have := ih h2
      match o with
      | some u =>
        simp only [List.set_cons_succ, symsAll_cons_some]
        calc (syms u : Multiset Nat) + symsAll (rest.set i none) + syms a
            = (syms u : Multiset Nat) + (symsAll (rest.set i none) + syms a) := by abel
          _ = (syms u : Multiset Nat) + symsAll rest := by rw [this]
      | none =>
        simpa [List.set_cons_succ, symsAll_cons_none] using this

lemma numActive_set_some {st : List (Option HTree)} {i : Nat} {a : HTree}
    (h : st.getD i none = some a) (t : HTree) :
    numActive (st.set i (some t)) = numActive st := by
  induction st generalizing i with
  | nil => simp [List.getD] at h
  | cons o rest ih =>
    match i with
    | 0 =>
      have ho : o = some a := by simpa [List.getD] using h
      subst ho
      simp [List.set_cons_zero, numActive_cons_some]
    | i + 1 =>
      have h2 : rest.getD i none = some a := by simpa [List.getD] using h
      match o with
      | some u => simp [List.set_cons_succ, numActive_cons_some, ih h2]
      | none => simp [List.set_cons_succ, numActive_cons_none, ih h2]

lemma numActive_set_none {st : List (Option HTree)} {i : Nat} {a : HTree}
    (h : st.getD i none = some a) :
    numActive (st.set i none) + 1 = numActive st := by
  induction st generalizing i with
  | nil => simp [List.getD] at h
  | cons o rest ih =>
    match i with
    | 0 =>
      have ho : o = some a := by simpa [List.getD] using h
      subst ho
      simp [List.set_cons_zero, numActive_cons_none, numActive_cons_some]
    | i + 1 =>
      have h2 : rest.getD i none = some a := by simpa [List.getD] using h
      have h3 := ih h2
      match o with
      | some u =>
        simp only [List.set_cons_succ, numActive_cons_some]
        omega
      | none => simp [List.set_cons_succ, numActive_cons_none, h3]

lemma getD_set_ne {st : List (Option HTree)} {i j : Nat} (v : Option HTree)
    (h : i ≠ j) : (st.set i v).getD j none = st.getD j none := by
  induction st generalizing i j with
  | nil => simp
  | cons o rest ih =>
    match i, j with
    | 0, 0 => exact absurd rfl h
    | 0, j + 1 => simp [List.set_cons_zero, List.getD]
    | i + 1, 0 => simp [List.set_cons_succ, List.getD]
    | i + 1, j + 1 =>
      have : i ≠ j := fun e => h (by rw [e])
      simpa [List.set_cons_succ, List.getD] using ih this

lemma mem_activeTrees {st : List (Option HTree)} {i : Nat} {a : HTree}
    (h : st.getD i none = some a) : a ∈ activeTrees st := by
  induction st generalizing i with
  | nil => simp [List.getD] at h
  | cons o rest ih =>
    match i with
    | 0 =>
      have ho : o = some a := by simpa [List.getD] using h
      subst ho
      simp [activeTrees_cons_some]
    | i + 1 =>
      have h2 : rest.getD i none = some a := by simpa [List.getD] using h
      match o with
      | some u => simp [activeTrees_cons_some, ih h2]
      | none => simpa [activeTrees_cons_none] using ih h2

lemma exists_one_active {st : List (Option HTree)} (h : 1 ≤ numActive st) :
    ∃ j w, actWeight st j = some w := by
  induction st with
  | nil => simp [numActive, activeTrees] at h
  | cons o rest ih =>
    match o with
    | some t => exact ⟨0, t.count, by simp [actWeight_cons_zero]⟩
    | none =>
      rw [numActive_cons_none] at h
      obtain ⟨j, w, hw⟩ := ih h
      exact ⟨j + 1, w, by rwa [actWeight_cons_succ]⟩

lemma exists_two_active {st : List (Option HTree)} (h : 2 ≤ numActive st) :
    ∃ i j wi wj, i ≠ j ∧ actWeight st i = some wi ∧ actWeight st j = some wj := by
  induction st with
  | nil => simp [numActive, activeTrees] at h
  | cons o rest ih =>
    cases o with
    | some t =>
      rw [numActive_cons_some] at h
      have h1 : 1 ≤ numActive rest := by omega
      obtain ⟨j, w, hw⟩ := exists_one_active h1
      exact ⟨0, j + 1, t.count, w, by omega,
        by simp [actWeight_cons_zero], by rwa [actWeight_cons_succ]⟩
    | none =>
      rw [numActive_cons_none] at h
      obtain ⟨i, j, wi, wj, hij, hi, hj⟩ := ih h
      exact ⟨i + 1, j + 1, wi, wj, by omega,
        by rwa [actWeight_cons_succ], by rwa [actWeight_cons_succ]⟩

/-!  ## The tree-construction invariant -/

lemma getD_some_lt_length {st : List (Option HTree)} {i : Nat} {a : HTree}
    (h : st.getD i none = some a) : i < st.length := by
  by_contra hi
  have hle : st.length ≤ i := Nat.le_of_not_lt hi
  simp [List.getD, List.getElem?_eq_none hle] at h

lemma getD_set_self {st : List (Option HTree)} {i : Nat} (v : Option HTree)
    (h : i < st.length) : (st.set i v).getD i none = v := by
  induction st generalizing i with
  | nil => simp at h
  | cons o rest ih =>
    match i with
    | 0 => simp [List.set_cons_zero, List.getD]
    | i + 1 =>
      have h2 : i < rest.length := by simpa using h
      simpa [List.set_cons_succ, List.getD] using ih h2

lemma syms_merge_node (si nsi : Nat) (a b : HTree) :
    (syms (merge_node si nsi a b) : Multiset Nat)
      = (syms a : Multiset Nat) + (syms b : Multiset Nat) := by
  unfold merge_node
  split
  · simp [syms]
  · split
    · simp [syms]
    · simpa [syms] using add_comm (syms b : Multiset Nat) (syms a : Multiset Nat)

lemma merge_node_count (si nsi : Nat) (a b : HTree) :
    (merge_node si nsi a b).count = a.count + b.count := by
  unfold merge_node
  split
  · rfl
  · split
    · rfl
    · rfl

lemma merge_node_is_node (si nsi : Nat) (a b : HTree) :
    ∃ w l m, merge_node si nsi a b = HTree.node w l m := by
  unfold merge_node
  split
  · exact ⟨_, _, _, rfl⟩
  · split
    · exact ⟨_, _, _, rfl⟩
    · exact ⟨_, _, _, rfl⟩

lemma double_set_facts {st : List (Option HTree)} {i j : Nat} {a b : HTree}
    (v : HTree) (hne : i ≠ j)
    (ha : st.getD i none = some a) (hb : st.getD j none = some b) :
    symsAll ((st.set i (some v)).set j none)
        + ((syms a : Multiset Nat) + (syms b : Multiset Nat))
      = symsAll st + (syms v : Multiset Nat)
    ∧ numActive ((st.set i (some v)).set j none) + 1 = numActive st
    ∧ ((st.set i (some v)).set j none).length = st.length
    ∧ ((st.set i (some v)).set j none).getD i none = some v := by
  have hb1 : (st.set i (some v)).getD j none = some b := by
    rw [getD_set_ne _ hne]; exact hb
  have e1 := symsAll_set_none hb1
  have e2 := symsAll_set_some ha v
  refine ⟨?_, ?_, by simp, ?_⟩
  · have : symsAll ((st.set i (some v)).set j none) + (syms b : Multiset Nat)
        + (syms a : Multiset Nat) = symsAll st + (syms v : Multiset Nat) := by
      rw [e1, e2]
    calc symsAll ((st.set i (some v)).set j none)
        + ((syms a : Multiset Nat) + (syms b : Multiset Nat))
        = symsAll ((st.set i (some v)).set j none) + (syms b : Multiset Nat)
          + (syms a : Multiset Nat) := by abel
      _ = symsAll st + (syms v : Multiset Nat) := this
  · have n1 := numActive_set_none hb1
    have n2 := numActive_set_some ha v
    omega
  · rw [getD_set_ne _ (fun e => hne e.symm)]
    exact getD_set_self _ (getD_some_lt_length ha)

lemma store_new_facts {st : List (Option HTree)} {si nsi : Nat} {a b : HTree}
    (hne : si ≠ nsi)
    (ha : st.getD si none = some a) (hb : st.getD nsi none = some b) (v : HTree) :
    symsAll (store_new st si nsi v)
        + ((syms a : Multiset Nat) + (syms b : Multiset Nat))
      = symsAll st + (syms v : Multiset Nat)
    ∧ numActive (store_new st si nsi v) + 1 = numActive st
    ∧ (store_new st si nsi v).length = st.length
    ∧ ∃ i, (store_new st si nsi v).getD i none = some v := by
  unfold store_new
  split
  · obtain ⟨e1, e2, e3, e4⟩ := double_set_facts v hne ha hb
    exact ⟨e1, e2, e3, si, e4⟩
  · obtain ⟨e1, e2, e3, e4⟩ := double_set_facts v (fun e => hne e.symm) hb ha
    refine ⟨?_, e2, e3, nsi, e4⟩
    calc symsAll ((st.set nsi (some v)).set si none)
        + ((syms a : Multiset Nat) + (syms b : Multiset Nat))
        = symsAll ((st.set nsi (some v)).set si none)
          + ((syms b : Multiset Nat) + (syms a : Multiset Nat)) := by abel
      _ = symsAll st + (syms v : Multiset Nat) := e1

lemma build_step_eq {st : List (Option HTree)} {si nsi : Nat} {a b : HTree}
    (r : Option HTree) (hfs : find_smallest st = (si, nsi))
    (ha : st.getD si none = some a) (hb : st.getD nsi none = some b) :
    build_step (st, r)
      = (store_new st si nsi (merge_node si nsi a b),
         some (merge_node si nsi a b)) := by
  have ha2 : st[si]?.getD none = some a := by
    rw [← List.getD_eq_getElem?_getD]; exact ha
  have hb2 : st[nsi]?.getD none = some b := by
    rw [← List.getD_eq_getElem?_getD]; exact hb
  simp [build_step, hfs, ha2, hb2]

/-- One merge step from any state satisfying the invariant with at least
two active slots: the merge succeeds, the invariant is preserved, the
new node is an internal node stored in the state, and it is the step's
reported root. -/
lemma build_step_spec {st : List (Option HTree)} (r : Option HTree) {k : Nat}
    (hI : BInv k st) (hk : k < 255) :
    ∃ st2 t, build_step (st, r) = (st2, some t) ∧ BInv (k + 1) st2 ∧
      (∃ i, st2.getD i none = some t) ∧ (∃ w l m, t = HTree.node w l m) := by
  have h2act : 2 ≤ numActive st := by
    have := hI.act
    omega
  obtain ⟨wmin, w2, m1, m2, m3, m4, m5, m6, m7⟩ :=
    find_smallest_spec st (exists_two_active h2act)
  obtain ⟨a, ha, hac⟩ := actWeight_eq_some.mp m1
  obtain ⟨b, hb, hbc⟩ := actWeight_eq_some.mp m5
  have hne : (find_smallest st).1 ≠ (find_smallest st).2 := fun e => m4 e.symm
  have hfs : find_smallest st = ((find_smallest st).1, (find_smallest st).2) := rfl
  have heq := build_step_eq r hfs ha hb
  obtain ⟨e1, e2, e3, i, e4⟩ :=
    store_new_facts hne ha hb
      (merge_node (find_smallest st).1 (find_smallest st).2 a b)
  refine ⟨_, _, heq, ⟨?_, ?_, ?_⟩, ⟨i, e4⟩, merge_node_is_node _ _ _ _⟩
  · rw [e3, hI.len]
  · have := hI.act
    omega
  · rw [syms_merge_node] at e1
    rw [hI.sym] at e1
    exact add_right_cancel e1

lemma symsAll_append (l1 l2 : List (Option HTree)) :
    symsAll (l1 ++ l2) = symsAll l1 + symsAll l2 := by
  simp [symsAll, activeTrees, List.filterMap_append]

lemma init_actives_inv (f : Nat → Nat) : BInv 0 (init_actives f) := by
  have key : ∀ n : Nat,
      symsAll ((List.range n).map (fun i => some (HTree.leaf i (f i))))
        = ((List.range n : List Nat) : Multiset Nat) := by
    intro n
    induction n with
    | zero => simp [symsAll, activeTrees]
    | succ n ih =>
      rw [List.range_succ, List.map_append, symsAll_append, ih]
      simp [symsAll, activeTrees, syms, Multiset.coe_singleton]
      rfl
  constructor
  · simp [init_actives]
  · have e : (fun i : Nat => some (HTree.leaf i (f i)))
        = some ∘ (fun i : Nat => HTree.leaf i (f i)) := rfl
    simp [numActive, activeTrees, init_actives, List.filterMap_map, e,
      List.filterMap_eq_map]
  · exact key 256

lemma build_run (f : Nat → Nat) :
    ∀ k, k ≤ 255 → ∃ st r, build_step^[k] (init_actives f, none) = (st, r)
      ∧ BInv k st
      ∧ (1 ≤ k → ∃ t i, r = some t ∧ st.getD i none = some t
          ∧ (∃ w l m, t = HTree.node w l m)) := by
  intro k
  induction k with
  | zero =>
    intro _
    exact ⟨init_actives f, none, rfl, init_actives_inv f, by omega⟩
  | succ k ih =>
    intro hk
    obtain ⟨st, r, hit, hI, _⟩ := ih (by omega)
    obtain ⟨st2, t, hstep, hI2, hmem, hnode⟩ := build_step_spec r hI (by omega)
    refine ⟨st2, some t, ?_, hI2, ?_⟩
    · rw [Function.iterate_succ_apply', hit, hstep]
    · intro _
      obtain ⟨i, hi⟩ := hmem
      exact ⟨t, i, rfl, hi, hnode⟩

/-- The built tree: always present, always an internal node, and its
leaves are exactly the 256 byte values (hence each appears exactly
once). -/
theorem build_tree_spec (f : Nat → Nat) :
    ∃ t, build_tree f = some t ∧ (∃ w l m, t = HTree.node w l m) ∧
      (syms t : Multiset Nat) = ((List.range 256 : List Nat) : Multiset Nat) := by
  obtain ⟨st, r, hit, hI, hr⟩ := build_run f 255 (Nat.le_refl 255)
  obtain ⟨t, i, rfl, hget, hnode⟩ := hr (by omega)
  have hone : numActive st = 1 := by
    have := hI.act
    omega
  obtain ⟨t0, ht0⟩ := List.length_eq_one.mp hone
  have hmem : t ∈ activeTrees st := mem_activeTrees hget
  rw [ht0] at hmem
  have : t = t0 := by simpa using hmem
  subst this
  have hsyms : symsAll st = (syms t : Multiset Nat) := by
    simp [symsAll, ht0]
  refine ⟨t, ?_, hnode, ?_⟩
  · rw [build_tree, hit]
  · rw [← hsyms, hI.sym]

/-!  ## Codes and paths -/

lemma walk_code_eq (t : HTree) (s : Nat) :
    walk_code t s = (find_path t s).map List.reverse := by
  induction t with
  | leaf s' c =>
    simp only [walk_code, find_path]
    split <;> simp
  | node c l m ihl ihm =>
    simp only [walk_code, find_path, ihl, ihm]
    cases find_path l s with
    | some p => simp
    | none =>
      cases find_path m s with
      | some p => simp
      | none => simp

lemma build_codes_eq {t : HTree} {s : Nat} {p : List Bool}
    (h : find_path t s = some p) : build_codes t s = p := by
  rw [build_codes, walk_code_eq, h]
  simp

lemma find_path_sound {t : HTree} {s : Nat} {p : List Bool}
    (h : find_path t s = some p) : s ∈ syms t := by
  induction t generalizing p with
  | leaf s' c =>
    simp only [find_path] at h
    split at h
    · simp [syms]
      omega
    · cases h
  | node c l m ihl ihm =>
    simp only [find_path] at h
    cases hl : find_path l s with
    | some q =>
      simp [syms]
      exact Or.inl (ihl hl)
    | none =>
      rw [hl] at h
      cases hm : find_path m s with
      | some q =>
        simp [syms]
        exact Or.inr (ihm hm)
      | none =>
        rw [hm] at h
        cases h

lemma mem_find_path {t : HTree} {s : Nat} (h : s ∈ syms t) :
    ∃ p, find_path t s = some p := by
  induction t with
  | leaf s' c =>
    simp [syms] at h
    exact ⟨[], by simp [find_path, h]⟩
  | node c l m ihl ihm =>
    simp only [find_path]
    cases hl : find_path l s with
    | some q => exact ⟨false :: q, rfl⟩
    | none =>
      simp [syms] at h
      rcases h with h | h
      · obtain ⟨q, hq⟩ := ihl h
        rw [hq] at hl
        cases hl
      · obtain ⟨q, hq⟩ := ihm h
        rw [hq]
        exact ⟨true :: q, rfl⟩

lemma find_path_node_ne_nil {w : Nat} {l m : HTree} {s : Nat} {p : List Bool}
    (h : find_path (HTree.node w l m) s = some p) : p ≠ [] := by
  simp only [find_path] at h
  cases hl : find_path l s with
  | some q =>
    rw [hl] at h
    cases h
    simp
  | none =>
    rw [hl] at h
    cases hm : find_path m s with
    | some q =>
      rw [hm] at h
      cases h
      simp
    | none =>
      rw [hm] at h
      cases h

lemma find_path_nil {t : HTree} {s : Nat}
    (h : find_path t s = some []) : ∃ c, t = HTree.leaf s c := by
  cases t with
  | leaf s' c =>
    simp only [find_path] at h
    split at h
    · rename_i he
      exact ⟨c, by rw [he]⟩
    · cases h
  | node w l m => exact absurd rfl (find_path_node_ne_nil h)

lemma find_path_cons {w : Nat} {l m : HTree} {s : Nat} {b : Bool} {p : List Bool}
    (h : find_path (HTree.node w l m) s = some (b :: p)) :
    (b = false ∧ find_path l s = some p) ∨ (b = true ∧ find_path m s = some p) := by
  simp only [find_path] at h
  cases hl : find_path l s with
  | some q =>
    rw [hl] at h
    cases h
    exact Or.inl ⟨rfl, rfl⟩
  | none =>
    rw [hl] at h
    cases hm : find_path m s with
    | some q =>
      rw [hm] at h
      cases h
      exact Or.inr ⟨rfl, rfl⟩
    | none =>
      rw [hm] at h
      cases h

/-- Prefix-freeness of root-to-leaf paths in a tree with pairwise
distinct leaf symbols. -/
lemma find_path_prefix_free {t : HTree} (hnd : (syms t).Nodup) :
    ∀ {a b : Nat} {p q : List Bool}, a ≠ b →
      find_path t a = some p → find_path t b = some q → ¬ p <+: q := by
  induction t with
  | leaf s' c =>
    intro a b p q hab hp hq
    simp only [find_path] at hp hq
    split at hp
    · split at hq
      · rename_i h1 h2
        exact absurd (h1.symm.trans h2) hab
      · cases hq
    · cases hp
  | node c l m ihl ihm =>
    intro a b p q hab hp hq
    have hnd2 := hnd
    simp only [syms, List.nodup_append] at hnd2
    obtain ⟨ndl, ndm, _⟩ := hnd2
    match p, q with
    | [], _ => exact absurd rfl (find_path_node_ne_nil hp)
    | _ :: _, [] => exact absurd rfl (find_path_node_ne_nil hq)
    | bp :: p', bq :: q' =>
      intro hpre
      rw [List.cons_prefix_cons] at hpre
      obtain ⟨hb, hpre⟩ := hpre
      rcases find_path_cons hp with ⟨rfl, hpl⟩ | ⟨rfl, hpm⟩ <;>
        rcases find_path_cons hq with ⟨hbq, hql⟩ | ⟨hbq, hqm⟩
      · exact ihl ndl hab hpl hql hpre
      · rw [hbq] at hb
        cases hb
      · rw [hbq] at hb
        cases hb
      · exact ihm ndm hab hpm hqm hpre

/-!  ## Decoding -/

lemma decode_loop_nil (root cur : HTree) (count total : Nat) :
    decode_loop root cur count total [] = [] := rfl

lemma decode_loop_cons (root cur : HTree) (count total : Nat) (b : Bool)
    (bs : List Bool) :
    decode_loop root cur count total (b :: bs)
      = match process_bit cur b with
        | none => []
        | some cur2 =>
          match code_finished cur2 with
          | some sym =>
            if count + 1 = total then [sym]
            else sym :: decode_loop root root (count + 1) total bs
          | none => decode_loop root cur2 count total bs := by
  rfl

lemma process_bit_true (t : HTree) : process_bit t true = t.moreChild := rfl

lemma process_bit_false (t : HTree) : process_bit t false = t.lessChild := rfl

lemma find_path_some_leaf {sx cx : Nat} {s : Nat} {p : List Bool}
    (h : find_path (HTree.leaf sx cx) s = some p) : p = [] := by
  simp only [find_path] at h
  split at h
  · cases h
    rfl
  · cases h

/-- Walking the exact root-to-leaf path of symbol `s` emits `s`,
consumes exactly that path, and resets the walker to the root. -/
lemma decode_step {root : HTree} {s : Nat} :
    ∀ {p : List Bool} {t : HTree} (rest : List Bool) (count total : Nat),
      find_path t s = some p → p ≠ [] →
      decode_loop root t count total (p ++ rest)
        = s :: (if count + 1 = total then []
            else decode_loop root root (count + 1) total rest) := by
  intro p
  induction p with
  | nil => intro t rest count total _ hne; exact absurd rfl hne
  | cons b p' ih =>
    intro t rest count total hp _
    match t with
    | .leaf s' c =>
      simp only [find_path] at hp
      split at hp <;> cases hp
    | .node w l m =>
      have hchild : (b = false ∧ find_path l s = some p')
          ∨ (b = true ∧ find_path m s = some p') := find_path_cons hp
      rcases hchild with ⟨rfl, hc⟩ | ⟨rfl, hc⟩
      · -- bit 0: move to the less child
        rw [List.cons_append, decode_loop_cons, process_bit_false]
        cases hp' : p' with
        | nil =>
          subst hp'
          obtain ⟨cc, rfl⟩ := find_path_nil hc
          simp only [HTree.lessChild, code_finished, List.nil_append]
          split <;> rfl
        | cons b2 p2 =>
          have hne2 : p' ≠ [] := by rw [hp']; simp
          match l with
          | .leaf sx cx =>
            rw [find_path_some_leaf hc] at hp'
            cases hp'
          | .node w2 l2 m2 =>
            simp only [HTree.lessChild, code_finished]
            rw [← hp']
            exact ih rest count total hc hne2
      · -- bit 1: move to the more child
        rw [List.cons_append, decode_loop_cons, process_bit_true]
        cases hp' : p' with
        | nil =>
          subst hp'
          obtain ⟨cc, rfl⟩ := find_path_nil hc
          simp only [HTree.moreChild, code_finished, List.nil_append]
          split <;> rfl
        | cons b2 p2 =>
          have hne2 : p' ≠ [] := by rw [hp']; simp
          match m with
          | .leaf sx cx =>
            rw [find_path_some_leaf hc] at hp'
            cases hp'
          | .node w2 l2 m2 =>
            simp only [HTree.moreChild, code_finished]
            rw [← hp']
            exact ih rest count total hc hne2

/-!  ## The built tree of a frequency table -/

lemma tree_of_spec (f : Nat → Nat) :
    build_tree f = some (tree_of f)
      ∧ (∃ w l m, tree_of f = HTree.node w l m)
      ∧ (syms (tree_of f) : Multiset Nat)
          = ((List.range 256 : List Nat) : Multiset Nat) := by
  obtain ⟨t, h1, h2, h3⟩ := build_tree_spec f
  have ht : tree_of f = t := by rw [tree_of, h1]; rfl
  rw [ht]
  exact ⟨h1, h2, h3⟩

lemma syms_tree_nodup (f : Nat → Nat) : (syms (tree_of f)).Nodup := by
  have h := (tree_of_spec f).2.2
  have : (syms (tree_of f) : Multiset Nat).Nodup := by
    rw [h]
    exact (Multiset.coe_nodup).mpr (List.nodup_range 256)
  exact (Multiset.coe_nodup).mp this

lemma mem_syms_tree (f : Nat → Nat) {s : Nat} (hs : s < 256) :
    s ∈ syms (tree_of f) := by
  have h := (tree_of_spec f).2.2
  have : s ∈ (syms (tree_of f) : Multiset Nat) := by
    rw [h]
    exact Multiset.mem_coe.mpr (List.mem_range.mpr hs)
  exact Multiset.mem_coe.mp this

/-!  ## Total counts -/

lemma sum_map_add (g h : Nat → Nat) (l : List Nat) :
    (l.map (fun s => g s + h s)).sum = (l.map g).sum + (l.map h).sum := by
  induction l with
  | nil => simp
  | cons a l ih =>
    simp [ih]
    omega

lemma sum_ite_range (c : Nat) : ∀ n : Nat,
    ((List.range n).map (fun s => if s = c then 1 else 0)).sum
      = if c < n then 1 else 0 := by
  intro n
  induction n with
  | zero => simp
  | succ n ih =>
    rw [List.range_succ, List.map_append, List.sum_append, ih]
    simp only [List.map_cons, List.map_nil, List.sum_cons, List.sum_nil]
    split_ifs <;> omega

/-- The total count of the histogram of a byte sequence is its length. -/
lemma get_count_total_histo (x : List Nat) (hx : ∀ c ∈ x, c < 256) :
    get_count_total (histo x) = x.length := by
  induction x with
  | nil =>
    have e : histo [] = fun _ => 0 := by
      funext s
      simp [histo]
    have z : ∀ l : List Nat, (l.map (fun _ => (0 : Nat))).sum = 0 := by
      intro l
      induction l with
      | nil => rfl
      | cons a l ihz => simp [ihz]
    rw [get_count_total, e, z]
    rfl
  | cons c x' ih =>
    have hc : c < 256 := hx c (by simp)
    have hx' : ∀ d ∈ x', d < 256 := fun d hd => hx d (by simp [hd])
    have key : (List.range 256).map (histo (c :: x'))
        = (List.range 256).map (fun s => histo x' s + (if s = c then 1 else 0)) := by
      apply List.map_congr_left
      intro s _
      by_cases hsc : s = c
      · subst hsc
        simp [histo, List.count_cons]
      · simp [histo, List.count_cons, hsc, Ne.symm hsc]
    rw [get_count_total, key, sum_map_add, sum_ite_range, if_pos hc]
    have hs := ih hx'
    rw [get_count_total] at hs
    simp only [List.length_cons]
    omega

/-!  ## Decode/encode round trip -/

lemma decode_encode {root : HTree}
    (hcodes : ∀ c, c < 256 → ∃ p, find_path root c = some p ∧ p ≠ []) :
    ∀ (x : List Nat) (count total : Nat), (∀ c ∈ x, c < 256) →
      count + x.length = total →
      decode_loop root root count total
        (x.flatMap (fun c => build_codes root c)) = x := by
  intro x
  induction x with
  | nil =>
    intro count total _ _
    simp [decode_loop_nil]
  | cons c x' ih =>
    intro count total hx htot
    have hc : c < 256 := hx c (by simp)
    obtain ⟨p, hp, hpne⟩ := hcodes c hc
    have hbc : build_codes root c = p := build_codes_eq hp
    rw [List.flatMap_cons, hbc,
      decode_step (x'.flatMap (fun c => build_codes root c)) count total hp hpne]
    simp only [List.length_cons] at htot
    by_cases he : count + 1 = total
    · have hx0 : x' = [] := by
        have : x'.length = 0 := by omega
        exact List.length_eq_zero.mp this
      rw [if_pos he, hx0]
    · rw [if_neg he]
      congr 1
      exact ih (count + 1) total (fun d hd => hx d (by simp [hd])) (by omega)

/-- Round trip: decoding the encoding of `x` against the tree rebuilt
from `x`'s own histogram, stopping after the histogram's total count of
emitted bytes, reproduces `x`. -/
lemma round_trip_helper (x : List Nat) (hx : ∀ c ∈ x, c < 256) :
    decompress (histo x) (compress (histo x) x) = x := by
  obtain ⟨hbt, ⟨w, l, m, hnode⟩, hsyms⟩ := tree_of_spec (histo x)
  have hcodes : ∀ c, c < 256 →
      ∃ p, find_path (tree_of (histo x)) c = some p ∧ p ≠ [] := by
    intro c hc
    obtain ⟨p, hp⟩ := mem_find_path (mem_syms_tree (histo x) hc)
    refine ⟨p, hp, ?_⟩
    rw [hnode] at hp
    exact find_path_node_ne_nil hp
  rw [decompress, compress, get_count_total_histo x hx]
  exact decode_encode hcodes x 0 x.length hx (by omega)

/-!  ## Stream termination -/

lemma decode_loop_length_le (root : HTree) :
    ∀ (bits : List Bool) (cur : HTree) (count total : Nat), count < total →
      (decode_loop root cur count total bits).length ≤ total - count := by
  intro bits
  induction bits with
  | nil =>
    intro cur count total h
    simp [decode_loop_nil]
  | cons b bs ih =>
    intro cur count total h
    rw [decode_loop_cons]
    split
    · simp
    · rename_i cur2 hpb
      split
      · rename_i sym hcf
        split_ifs with he
        · simp
          omega
        · have := ih root (count + 1) total (by omega)
          simp only [List.length_cons]
          omega
      · rename_i hcf
        exact ih cur2 count total h

lemma decode_loop_pad (root : HTree) :
    ∀ (bits : List Bool) (pad : List Bool) (cur : HTree) (count total : Nat),
      count < total →
      (decode_loop root cur count total bits).length = total - count →
      decode_loop root cur count total (bits ++ pad)
        = decode_loop root cur count total bits := by
  intro bits
  induction bits with
  | nil =>
    intro pad cur count total h hlen
    rw [decode_loop_nil] at hlen
    simp at hlen
    omega
  | cons b bs ih =>
    intro pad cur count total h hlen
    rw [decode_loop_cons] at hlen
    rw [List.cons_append, decode_loop_cons, decode_loop_cons]
    split at hlen
    · rfl
    · rename_i cur2 hpb
      split at hlen
      · rename_i sym hcf
        split_ifs at hlen ⊢ with he
        · rfl
        · simp only [List.length_cons] at hlen
          congr 1
          exact ih pad root (count + 1) total (by omega) (by omega)
      · rename_i hcf
        exact ih pad cur2 count total h hlen

/-!  ## Tree shape counting -/

lemma leafCount_eq_syms_length (t : HTree) : leafCount t = (syms t).length := by
  induction t with
  | leaf s c => rfl
  | node c l m ihl ihm => simp [leafCount, syms, ihl, ihm]

lemma internals_add_one (t : HTree) : internals t + 1 = leafCount t := by
  induction t with
  | leaf s c => rfl
  | node c l m ihl ihm =>
    simp only [internals, leafCount]
    omega

lemma subtrees_arity (t : HTree) :
    ∀ u ∈ subtrees t, childArity u = 0 ∨ childArity u = 2 := by
  induction t with
  | leaf s c =>
    intro u hu
    simp [subtrees] at hu
    subst hu
    exact Or.inl rfl
  | node c l m ihl ihm =>
    intro u hu
    simp [subtrees] at hu
    rcases hu with rfl | hu | hu
    · exact Or.inr rfl
    · exact ihl u hu
    · exact ihm u hu

lemma leafCount_tree_of (f : Nat → Nat) : leafCount (tree_of f) = 256 := by
  have h := (tree_of_spec f).2.2
  have hcard := congrArg Multiset.card h
  simp only [Multiset.coe_card] at hcard
  rw [leafCount_eq_syms_length, hcard, List.length_range]

/-!  ## Running `build_tree` on the concrete scenario histogram -/

lemma fsGo_nil (k : Nat) (s : FSState) : fsGo k s [] = s := rfl

lemma fsGo_cons (k : Nat) (s : FSState) (o : Option HTree)
    (rest : List (Option HTree)) :
    fsGo k s (o :: rest) = fsGo (k + 1) (fsStep k s o) rest := rfl

lemma fsGo_append (l1 l2 : List (Option HTree)) :
    ∀ (k : Nat) (s : FSState),
      fsGo k s (l1 ++ l2) = fsGo (k + l1.length) (fsGo k s l1) l2 := by
  induction l1 with
  | nil => intro k s; simp [fsGo_nil]
  | cons o rest ih =>
    intro k s
    rw [List.cons_append, fsGo_cons, fsGo_cons, ih]
    congr 1
    simp
    omega

lemma fsGo_replicate_none (n : Nat) :
    ∀ (k : Nat) (s : FSState), fsGo k s (List.replicate n none) = s := by
  induction n with
  | zero => intro k s; rfl
  | succ n ih =>
    intro k s
    rw [List.replicate_succ, fsGo_cons]
    exact ih (k + 1) (fsStep k s none)

/-- Once both tracked minima are 0, nothing can displace them. -/
lemma fsGo_zero_state (l : List (Option HTree)) :
    ∀ (k a b : Nat), fsGo k ⟨some 0, a, some 0, b⟩ l = ⟨some 0, a, some 0, b⟩ := by
  induction l with
  | nil => intro k a b; rfl
  | cons o rest ih =>
    intro k a b
    rw [fsGo_cons]
    have : fsStep k ⟨some 0, a, some 0, b⟩ o = ⟨some 0, a, some 0, b⟩ := by
      cases o with
      | none => rfl
      | some t => simp [fsStep, ltSentinel]
    rw [this]
    exact ih (k + 1) a b

lemma count_leaf (s c : Nat) : (HTree.leaf s c).count = c := rfl

lemma count_node (c : Nat) (l m : HTree) : (HTree.node c l m).count = c := rfl

lemma zchain_count (k : Nat) : (zchain k).count = 0 := by
  cases k <;> rfl

lemma zchain2_count (m : Nat) : (zchain2 m).count = 0 := by
  cases m with
  | zero => exact zchain_count 64
  | succ m => rfl

lemma getD_cons_succ (o : Option HTree) (l : List (Option HTree)) (j : Nat) :
    (o :: l).getD (j + 1) none = l.getD j none := by
  simp [List.getD]

lemma getD_cons_zero (o : Option HTree) (l : List (Option HTree)) :
    (o :: l).getD 0 none = o := by
  simp [List.getD]

lemma getD_append_right (l1 : List (Option HTree)) :
    ∀ (l2 : List (Option HTree)) (j : Nat),
      (l1 ++ l2).getD (l1.length + j) none = l2.getD j none := by
  induction l1 with
  | nil => intro l2 j; simp
  | cons o rest ih =>
    intro l2 j
    rw [List.cons_append,
      show (o :: rest).length + j = rest.length + j + 1 by simp; omega,
      getD_cons_succ]
    exact ih l2 j

lemma set_append_right (l1 : List (Option HTree)) :
    ∀ (l2 : List (Option HTree)) (j : Nat) (v : Option HTree),
      (l1 ++ l2).set (l1.length + j) v = l1 ++ l2.set j v := by
  induction l1 with
  | nil => intro l2 j v; simp
  | cons o rest ih =>
    intro l2 j v
    rw [List.cons_append,
      show (o :: rest).length + j = rest.length + j + 1 by simp; omega,
      List.set_cons_succ, ih, List.cons_append]

lemma replicate_append_cons (k : Nat) (l : List (Option HTree)) :
    List.replicate k (none : Option HTree) ++ none :: l
      = List.replicate (k + 1) none ++ l := by
  rw [List.replicate_succ' k (none : Option HTree), List.append_assoc,
    List.singleton_append]

lemma getD_replicate_add (n j : Nat) (l : List (Option HTree)) :
    (List.replicate n (none : Option HTree) ++ l).getD (n + j) none
      = l.getD j none := by
  induction n with
  | zero => simp
  | succ n ih =>
    rw [List.replicate_succ, List.cons_append,
      show n + 1 + j = (n + j) + 1 from by omega, getD_cons_succ]
    exact ih

lemma set_replicate_add (n j : Nat) (l : List (Option HTree)) (v : Option HTree) :
    (List.replicate n (none : Option HTree) ++ l).set (n + j) v
      = List.replicate n none ++ l.set j v := by
  induction n with
  | zero => simp
  | succ n ih =>
    rw [List.replicate_succ, List.cons_append,
      show n + 1 + j = (n + j) + 1 from by omega, List.set_cons_succ, ih,
      List.cons_append]

lemma getD_replicate_zero (k : Nat) (l : List (Option HTree)) :
    (List.replicate k (none : Option HTree) ++ l).getD k none = l.getD 0 none := by
  have h := getD_replicate_add k 0 l
  rw [Nat.add_zero] at h
  exact h

lemma set_replicate_zero (k : Nat) (l : List (Option HTree)) (v : Option HTree) :
    (List.replicate k (none : Option HTree) ++ l).set k v
      = List.replicate k none ++ l.set 0 v := by
  have h := set_replicate_add k 0 l v
  rw [Nat.add_zero] at h
  exact h

/-- The scan over `state1 k` finds the weight-0 chain at slot 0 and the
first remaining zero-weight leaf at slot `k + 1`. -/
lemma fsGo_state1 (k : Nat) (hk : k ≤ 63) :
    fsGo 0 ⟨none, 0, none, 0⟩ (state1 k) = ⟨some 0, 0, some 0, k + 1⟩ := by
  rw [state1, show 64 - k = (63 - k) + 1 from by omega, List.range'_succ,
    List.map_cons, fsGo_cons]
  have e1 : fsStep 0 ⟨none, 0, none, 0⟩ (some (zchain k)) = ⟨some 0, 0, none, 0⟩ := by
    simp [fsStep, ltSentinel, zchain_count]
  rw [e1, fsGo_append, fsGo_replicate_none, List.cons_append, fsGo_cons]
  have e2 : fsStep (0 + 1 + (List.replicate k (none : Option HTree)).length)
      ⟨some 0, 0, none, 0⟩ (zleaf (k + 1)) = ⟨some 0, 0, some 0, k + 1⟩ := by
    simp [fsStep, ltSentinel, zleaf, HTree.count, FSState.mk.injEq]
    omega
  rw [e2]
  exact fsGo_zero_state _ _ _ _

lemma find_smallest_state1 (k : Nat) (hk : k ≤ 63) :
    find_smallest (state1 k) = (0, k + 1) := by
  simp [find_smallest, fsGo_state1 k hk]

lemma state1_getD_zero (k : Nat) :
    (state1 k).getD 0 none = some (zchain k) := by
  rw [state1, getD_cons_zero]

lemma state1_getD_succ (k : Nat) (hk : k ≤ 63) :
    (state1 k).getD (k + 1) none = some (HTree.leaf (k + 1) 0) := by
  rw [state1, getD_cons_succ, getD_replicate_zero,
    show 64 - k = (63 - k) + 1 from by omega, List.range'_succ, List.map_cons,
    List.cons_append, getD_cons_zero]
  rfl

lemma build_step_state1 (k : Nat) (hk : k ≤ 63) (r : Option HTree) :
    build_step (state1 k, r) = (state1 (k + 1), some (zchain (k + 1))) := by
  have hfs := find_smallest_state1 k hk
  have ha := state1_getD_zero k
  have hb := state1_getD_succ k hk
  have heq := build_step_eq r hfs ha hb
  rw [heq]
  have hmn : merge_node 0 (k + 1) (zchain k) (HTree.leaf (k + 1) 0)
      = zchain (k + 1) := by
    simp [merge_node, zchain_count, count_leaf, zchain]
  rw [hmn]
  congr 1
  unfold store_new
  rw [if_pos (by omega : (0 : Nat) < k + 1)]
  conv_lhs =>
    rw [state1, List.set_cons_zero, List.set_cons_succ, set_replicate_zero,
      show 64 - k = (63 - k) + 1 from by omega, List.range'_succ, List.map_cons,
      List.cons_append, List.set_cons_zero]
  conv_rhs => rw [state1, show 64 - (k + 1) = 63 - k from by omega]
  rw [replicate_append_cons]

set_option maxRecDepth 40000 in
lemma init_eq_state1 : init_actives fC4 = state1 0 := by decide

lemma phase1 : ∀ k, k ≤ 64 →
    build_step^[k] (init_actives fC4, none)
      = (state1 k, if k = 0 then none else some (zchain k)) := by
  intro k
  induction k with
  | zero =>
    intro _
    simp [init_eq_state1]
  | succ k ih =>
    intro hk
    rw [Function.iterate_succ_apply', ih (by omega), build_step_state1 k (by omega)]
    simp

/-- Scanning the three heavy leaves from a state whose minimum is the
weight-0 chain: A(6), then B(3), then C(2) successively take second
place. -/
lemma fsGo_ABC (q : Nat) :
    fsGo q ⟨some 0, 0, none, 0⟩
      [some (HTree.leaf 65 6), some (HTree.leaf 66 3), some (HTree.leaf 67 2)]
      = ⟨some 0, 0, some 2, q + 2⟩ := by
  rw [fsGo_cons]
  have eA : fsStep q ⟨some 0, 0, none, 0⟩ (some (HTree.leaf 65 6))
      = ⟨some 0, 0, some 6, q⟩ := by
    simp [fsStep, ltSentinel, count_leaf]
  rw [eA, fsGo_cons]
  have eB : fsStep (q + 1) ⟨some 0, 0, some 6, q⟩ (some (HTree.leaf 66 3))
      = ⟨some 0, 0, some 3, q + 1⟩ := by
    simp [fsStep, ltSentinel, count_leaf]
  rw [eB, fsGo_cons]
  have eC : fsStep (q + 1 + 1) ⟨some 0, 0, some 3, q + 1⟩ (some (HTree.leaf 67 2))
      = ⟨some 0, 0, some 2, q + 1 + 1⟩ := by
    simp [fsStep, ltSentinel, count_leaf]
  rw [eC, fsGo_nil]

/-- The scan over `state2 m` finds the chain at slot 0 and the first
remaining zero-weight leaf at slot `68 + m`. -/
lemma fsGo_state2 (m : Nat) (hm : m ≤ 187) :
    fsGo 0 ⟨none, 0, none, 0⟩ (state2 m) = ⟨some 0, 0, some 0, 68 + m⟩ := by
  rw [state2, show 188 - m = (187 - m) + 1 from by omega, List.range'_succ,
    List.map_cons, fsGo_cons]
  have e1 : fsStep 0 ⟨none, 0, none, 0⟩ (some (zchain2 m)) = ⟨some 0, 0, none, 0⟩ := by
    simp [fsStep, ltSentinel, zchain2_count]
  rw [e1, fsGo_append, fsGo_replicate_none, fsGo_append, fsGo_ABC, fsGo_append,
    fsGo_replicate_none, fsGo_cons]
  have e2 : ∀ q : Nat, fsStep q ⟨some 0, 0, some 2, 0 + 1
        + (List.replicate 64 (none : Option HTree)).length + 2⟩ (zleaf (68 + m))
      = ⟨some 0, 0, some 0, q⟩ := by
    intro q
    simp [fsStep, ltSentinel, zleaf, count_leaf]
  rw [e2, fsGo_zero_state]
  simp only [List.length_replicate, List.length_cons, List.length_nil]

lemma find_smallest_state2 (m : Nat) (hm : m ≤ 187) :
    find_smallest (state2 m) = (0, 68 + m) := by
  simp [find_smallest, fsGo_state2 m hm]

lemma state2_getD_zero (m : Nat) :
    (state2 m).getD 0 none = some (zchain2 m) := by
  rw [state2, getD_cons_zero]

lemma state2_getD (m : Nat) (hm : m ≤ 187) :
    (state2 m).getD (68 + m) none = some (HTree.leaf (68 + m) 0) := by
  rw [state2, show 188 - m = (187 - m) + 1 from by omega, List.range'_succ,
    List.map_cons, show 68 + m = (67 + m) + 1 from by omega, getD_cons_succ,
    show 67 + m = 64 + (3 + m) from by omega, getD_replicate_add,
    List.cons_append, List.cons_append, List.cons_append, List.nil_append,
    show 3 + m = (2 + m) + 1 from by omega, getD_cons_succ,
    show 2 + m = (1 + m) + 1 from by omega, getD_cons_succ,
    show 1 + m = m + 1 from by omega, getD_cons_succ]
  rw [getD_replicate_zero, getD_cons_zero]
  rfl

lemma build_step_state2 (m : Nat) (hm : m ≤ 187) (r : Option HTree) :
    build_step (state2 m, r) = (state2 (m + 1), some (zchain2 (m + 1))) := by
  have hfs := find_smallest_state2 m hm
  have ha := state2_getD_zero m
  have hb := state2_getD m hm
  have heq := build_step_eq r hfs ha hb
  rw [heq]
  have hmn : merge_node 0 (68 + m) (zchain2 m) (HTree.leaf (68 + m) 0)
      = zchain2 (m + 1) := by
    simp [merge_node, zchain2_count, count_leaf, zchain2]
  rw [hmn]
  congr 1
  unfold store_new
  rw [if_pos (by omega : (0 : Nat) < 68 + m)]
  conv_lhs =>
    rw [state2, show 188 - m = (187 - m) + 1 from by omega, List.range'_succ,
      List.map_cons, List.set_cons_zero,
      show 68 + m = (67 + m) + 1 from by omega, List.set_cons_succ,
      show 67 + m = 64 + (3 + m) from by omega, set_replicate_add,
      List.cons_append, List.cons_append, List.cons_append, List.nil_append,
      show 3 + m = (2 + m) + 1 from by omega, List.set_cons_succ,
      show 2 + m = (1 + m) + 1 from by omega, List.set_cons_succ,
      show 1 + m = m + 1 from by omega, List.set_cons_succ,
      set_replicate_zero, List.set_cons_zero, replicate_append_cons]
  conv_rhs =>
    rw [state2, show 188 - (m + 1) = 187 - m from by omega]
  rw [show 64 + (m + 1 + 1 + 1) + 1 + 1 = 68 + (m + 1) from by omega]
  simp

lemma state1_64_eq : state1 64 = state2 0 := by
  rw [state1, state2]
  simp [zchain2]

lemma phase2 : ∀ m, m ≤ 188 →
    build_step^[64 + m] (init_actives fC4, none)
      = (state2 m, some (zchain2 m)) := by
  intro m
  induction m with
  | zero =>
    intro _
    have h := phase1 64 (by omega)
    simp only [show (64 : Nat) + 0 = 64 from rfl]
    rw [h, state1_64_eq]
    simp [zchain2]
  | succ m ih =>
    intro hm
    rw [show 64 + (m + 1) = (64 + m) + 1 from by omega,
      Function.iterate_succ_apply', ih (by omega),
      build_step_state2 m (by omega)]

lemma state2_188_eq : state2 188
    = some (zchain2 188) :: (List.replicate 64 none
      ++ ([some (HTree.leaf 65 6), some (HTree.leaf 66 3), some (HTree.leaf 67 2)]
      ++ List.replicate 188 none)) := by
  rw [state2]
  norm_num

lemma fsGo_state2_188 :
    fsGo 0 ⟨none, 0, none, 0⟩ (state2 188) = ⟨some 0, 0, some 2, 67⟩ := by
  rw [state2_188_eq, fsGo_cons]
  have e1 : fsStep 0 ⟨none, 0, none, 0⟩ (some (zchain2 188))
      = ⟨some 0, 0, none, 0⟩ := by
    simp [fsStep, ltSentinel, zchain2_count]
  rw [e1, fsGo_append, fsGo_replicate_none, fsGo_append, fsGo_ABC,
    fsGo_replicate_none]
  simp only [List.length_replicate]

lemma find_smallest_state2_188 : find_smallest (state2 188) = (0, 67) := by
  simp [find_smallest, fsGo_state2_188]

lemma state2_188_getD_C :
    (state2 188).getD 67 none = some (HTree.leaf 67 2) := by
  rw [state2_188_eq, show (67 : Nat) = 66 + 1 from rfl, getD_cons_succ,
    show (66 : Nat) = 64 + 2 from rfl, getD_replicate_add,
    List.cons_append, List.cons_append, List.cons_append, List.nil_append,
    show (2 : Nat) = 1 + 1 from rfl, getD_cons_succ,
    show (1 : Nat) = 0 + 1 from rfl, getD_cons_succ, getD_cons_zero]

lemma step253 (r : Option HTree) :
    build_step (state2 188, r)
      = (state3, some (HTree.node 2 (zchain2 188) (HTree.leaf 67 2))) := by
  have hfs := find_smallest_state2_188
  have ha := state2_getD_zero 188
  have hb := state2_188_getD_C
  have heq := build_step_eq r hfs ha hb
  rw [heq]
  have hmn : merge_node 0 67 (zchain2 188) (HTree.leaf 67 2)
      = HTree.node 2 (zchain2 188) (HTree.leaf 67 2) := by
    simp [merge_node, zchain2_count, count_leaf]
  rw [hmn]
  congr 1

lemma fsGo_state3 :
    fsGo 0 ⟨none, 0, none, 0⟩ state3 = ⟨some 2, 0, some 3, 66⟩ := by
  rw [state3, fsGo_cons]
  have e1 : fsStep 0 ⟨none, 0, none, 0⟩
      (some (HTree.node 2 (zchain2 188) (HTree.leaf 67 2)))
      = ⟨some 2, 0, none, 0⟩ := by
    simp [fsStep, ltSentinel, count_node]
  rw [e1, fsGo_append, fsGo_replicate_none, List.cons_append, fsGo_cons]
  have eA : ∀ q : Nat, fsStep q ⟨some 2, 0, none, 0⟩ (some (HTree.leaf 65 6))
      = ⟨some 2, 0, some 6, q⟩ := by
    intro q
    simp [fsStep, ltSentinel, count_leaf]
  rw [eA, List.cons_append, fsGo_cons]
  have eB : ∀ q : Nat, fsStep q ⟨some 2, 0, some 6, q - 1⟩ (some (HTree.leaf 66 3))
      = ⟨some 2, 0, some 3, q⟩ := by
    intro q
    simp [fsStep, ltSentinel, count_leaf]
  have eB2 : fsStep (0 + 1 + (List.replicate 64 (none : Option HTree)).length + 1)
      ⟨some 2, 0, some 6, 0 + 1 + (List.replicate 64 (none : Option HTree)).length⟩
      (some (HTree.leaf 66 3))
      = ⟨some 2, 0, some 3,
          0 + 1 + (List.replicate 64 (none : Option HTree)).length + 1⟩ := by
    simp [fsStep, ltSentinel, count_leaf]
  rw [eB2, List.cons_append, fsGo_cons]
  have eN : ∀ q s, fsStep q s (none : Option HTree) = s := fun _ _ => rfl
  rw [eN, List.nil_append, fsGo_replicate_none]
  simp only [List.length_replicate]

lemma find_smallest_state3 : find_smallest state3 = (0, 66) := by
  simp [find_smallest, fsGo_state3]

lemma state3_getD_B :
    state3.getD 66 none = some (HTree.leaf 66 3) := by
  rw [state3, show (66 : Nat) = 65 + 1 from rfl, getD_cons_succ,
    show (65 : Nat) = 64 + 1 from rfl, getD_replicate_add,
    List.cons_append, List.cons_append, List.cons_append, List.nil_append,
    show (1 : Nat) = 0 + 1 from rfl, getD_cons_succ, getD_cons_zero]

lemma step254 (r : Option HTree) :
    build_step (state3, r)
      = (state4, some (HTree.node 5
          (HTree.node 2 (zchain2 188) (HTree.leaf 67 2)) (HTree.leaf 66 3))) := by
  have hfs := find_smallest_state3
  have ha : state3.getD 0 none
      = some (HTree.node 2 (zchain2 188) (HTree.leaf 67 2)) := by
    rw [state3, getD_cons_zero]
  have hb := state3_getD_B
  have heq := build_step_eq r hfs ha hb
  rw [heq]
  have hmn : merge_node 0 66 (HTree.node 2 (zchain2 188) (HTree.leaf 67 2))
        (HTree.leaf 66 3)
      = HTree.node 5 (HTree.node 2 (zchain2 188) (HTree.leaf 67 2))
          (HTree.leaf 66 3) := by
    simp [merge_node, count_node, count_leaf]
  rw [hmn]
  congr 1

lemma fsGo_state4 :
    fsGo 0 ⟨none, 0, none, 0⟩ state4 = ⟨some 5, 0, some 6, 65⟩ := by
  rw [state4, fsGo_cons]
  have e1 : fsStep 0 ⟨none, 0, none, 0⟩
      (some (HTree.node 5 (HTree.node 2 (zchain2 188) (HTree.leaf 67 2))
        (HTree.leaf 66 3)))
      = ⟨some 5, 0, none, 0⟩ := by
    simp [fsStep, ltSentinel, count_node]
  rw [e1, fsGo_append, fsGo_replicate_none, List.cons_append, fsGo_cons]
  have eA : ∀ q : Nat, fsStep q ⟨some 5, 0, none, 0⟩ (some (HTree.leaf 65 6))
      = ⟨some 5, 0, some 6, q⟩ := by
    intro q
    simp [fsStep, ltSentinel, count_leaf]
  rw [eA, List.cons_append, fsGo_cons]
  have eN : ∀ q s, fsStep q s (none : Option HTree) = s := fun _ _ => rfl
  rw [eN, List.cons_append, fsGo_cons, eN, List.nil_append, fsGo_replicate_none]
  simp only [List.length_replicate]

lemma find_smallest_state4 : find_smallest state4 = (0, 65) := by
  simp [find_smallest, fsGo_state4]

lemma step255 (r : Option HTree) :
    build_step (state4, r) = (state5, some rootC4) := by
  have hfs := find_smallest_state4
  have ha : state4.getD 0 none
      = some (HTree.node 5 (HTree.node 2 (zchain2 188) (HTree.leaf 67 2))
          (HTree.leaf 66 3)) := by
    rw [state4, getD_cons_zero]
  have hb : state4.getD 65 none = some (HTree.leaf 65 6) := by
    rw [state4, show (65 : Nat) = 64 + 1 from rfl, getD_cons_succ,
      getD_replicate_zero, List.cons_append, getD_cons_zero]
  have heq := build_step_eq r hfs ha hb
  rw [heq]
  have hmn : merge_node 0 65
        (HTree.node 5 (HTree.node 2 (zchain2 188) (HTree.leaf 67 2))
          (HTree.leaf 66 3)) (HTree.leaf 65 6)
      = rootC4 := by
    simp [merge_node, count_node, count_leaf, rootC4]
  rw [hmn]
  congr 1

/-- The complete run of `build_tree` on the scenario histogram. -/
lemma build_tree_fC4 : build_tree fC4 = some rootC4 := by
  have h252 := phase2 188 (Nat.le_refl 188)
  rw [show (64 : Nat) + 188 = 252 from rfl] at h252
  rw [build_tree, show (255 : Nat) = 3 + 252 from rfl,
    Function.iterate_add_apply, h252,
    show (3 : Nat) = 2 + 1 from rfl, Function.iterate_succ_apply,
    step253, show (2 : Nat) = 1 + 1 from rfl, Function.iterate_succ_apply,
    step254, Function.iterate_one, step255]

lemma tree_of_fC4 : tree_of fC4 = rootC4 := by
  rw [tree_of, build_tree_fC4]
  rfl

lemma syms_zchain (k : Nat) : ∀ s ∈ syms (zchain k), s ≤ k := by
  induction k with
  | zero =>
    intro s hs
    simp [zchain, syms] at hs
    omega
  | succ k ih =>
    intro s hs
    simp only [zchain, syms, List.mem_append] at hs
    rcases hs with hs | hs
    · exact Nat.le_succ_of_le (ih s hs)
    · simp at hs
      omega

lemma syms_zchain2 (m : Nat) :
    ∀ s ∈ syms (zchain2 m), s ≤ 64 ∨ (68 ≤ s ∧ s < 68 + m) := by
  induction m with
  | zero =>
    intro s hs
    exact Or.inl (syms_zchain 64 s hs)
  | succ m ih =>
    intro s hs
    simp only [zchain2, syms, List.mem_append] at hs
    rcases hs with hs | hs
    · rcases ih s hs with h | h
      · exact Or.inl h
      · exact Or.inr ⟨h.1, by omega⟩
    · simp at hs
      omega

lemma find_path_none {t : HTree} {s : Nat} (h : s ∉ syms t) :
    find_path t s = none := by
  cases hp : find_path t s with
  | none => rfl
  | some p => exact absurd (find_path_sound hp) h

lemma walk_code_none {t : HTree} {s : Nat} (h : s ∉ syms t) :
    walk_code t s = none := by
  rw [walk_code_eq, find_path_none h]
  rfl

lemma walk_code_zchain2_heavy (s : Nat) (h65 : 65 ≤ s) (h68 : s < 68) :
    walk_code (zchain2 188) s = none := by
  apply walk_code_none
  intro hmem
  rcases syms_zchain2 188 s hmem with h | h <;> omega

/-- The code of A in the scenario tree is the single bit 1. -/
lemma code_A : build_codes rootC4 65 = [true] := by
  have hz := walk_code_zchain2_heavy 65 (by omega) (by omega)
  rw [build_codes, rootC4]
  simp [walk_code, hz]

/-- The code of B in the scenario tree is 01. -/
lemma code_B : build_codes rootC4 66 = [false, true] := by
  have hz := walk_code_zchain2_heavy 66 (by omega) (by omega)
  rw [build_codes, rootC4]
  simp [walk_code, hz]

/-- The code of C in the scenario tree is 001 — not 00. -/
lemma code_C : build_codes rootC4 67 = [false, false, true] := by
  have hz := walk_code_zchain2_heavy 67 (by omega) (by omega)
  rw [build_codes, rootC4]
  simp [walk_code, hz]

/-!  ## Claim theorems -/

/-- C1.  Round trip: for every finite byte sequence `x`, decoding the
encoding of `x` (encode with the code table derived from `x`'s frequency
histogram, then decode by tree-walking the tree rebuilt from that same
histogram, stopping after `totalCount` emitted symbols) reproduces `x`
exactly. -/
theorem claim_C1_round_trip (x : List Nat) (hx : ∀ c ∈ x, c < 256) :
    decompress (histo x) (compress (histo x) x) = x :=
  round_trip_helper x hx

/-- Witness for C1 at the concrete scenario input. -/
theorem claim_C1_witness :
    decompress (histo xC4) (compress (histo xC4) xC4) = xC4 :=
  claim_C1_round_trip xC4 (by decide)

/-- C2.  Tie-break of the minimum scan: on every active set with at
least two active slots, `find_smallest` returns as "smallest" the
lowest-indexed slot among those holding the globally smallest weight
(an element equal to the current minimum never displaces it), and as
"second-smallest" a different slot holding the smallest weight among the
remaining slots — again the lowest-indexed one achieving it, whether it
shares the smallest weight or holds the next-larger weight. -/
theorem claim_C2_find_smallest (st : List (Option HTree))
    (h2 : 2 ≤ numActive st) :
    ∃ wmin w2,
      actWeight st (find_smallest st).1 = some wmin ∧
      (∀ j c, actWeight st j = some c → wmin ≤ c) ∧
      (∀ j c, j < (find_smallest st).1 → actWeight st j = some c → wmin < c) ∧
      (find_smallest st).2 ≠ (find_smallest st).1 ∧
      actWeight st (find_smallest st).2 = some w2 ∧
      (∀ j c, j ≠ (find_smallest st).1 → actWeight st j = some c → w2 ≤ c) ∧
      (∀ j c, j < (find_smallest st).2 → j ≠ (find_smallest st).1 →
        actWeight st j = some c → w2 < c) :=
  find_smallest_spec st (exists_two_active h2)

/-- Witness for C2 on a concrete active set. -/
theorem claim_C2_witness :
    ∃ wmin w2,
      actWeight sampleSt (find_smallest sampleSt).1 = some wmin ∧
      (∀ j c, actWeight sampleSt j = some c → wmin ≤ c) ∧
      (∀ j c, j < (find_smallest sampleSt).1 →
        actWeight sampleSt j = some c → wmin < c) ∧
      (find_smallest sampleSt).2 ≠ (find_smallest sampleSt).1 ∧
      actWeight sampleSt (find_smallest sampleSt).2 = some w2 ∧
      (∀ j c, j ≠ (find_smallest sampleSt).1 →
        actWeight sampleSt j = some c → w2 ≤ c) ∧
      (∀ j c, j < (find_smallest sampleSt).2 →
        j ≠ (find_smallest sampleSt).1 →
        actWeight sampleSt j = some c → w2 < c) :=
  claim_C2_find_smallest sampleSt (by decide)

/-- C3.  Child assignment at every merge step: the two selected nodes
are the ones at the scan's two indices; when their weights differ the
lower-weight node (always the scan's "smallest") becomes `lessChild` and
the higher-weight node becomes `moreChild`; when the weights are equal,
the node at the lower active-slot index becomes `lessChild` and the node
at the higher index becomes `moreChild`, regardless of which was
returned as "smallest". -/
theorem claim_C3_child_assignment (st : List (Option HTree)) (r : Option HTree)
    (h2 : 2 ≤ numActive st) :
    ∃ si nsi a b,
      find_smallest st = (si, nsi) ∧ si ≠ nsi
      ∧ st.getD si none = some a ∧ st.getD nsi none = some b
      ∧ (build_step (st, r)).2 = some (merge_node si nsi a b)
      ∧ (a.count ≠ b.count →
          a.count < b.count
          ∧ (merge_node si nsi a b).lessChild = some a
          ∧ (merge_node si nsi a b).moreChild = some b)
      ∧ (a.count = b.count →
          (si < nsi → (merge_node si nsi a b).lessChild = some a
            ∧ (merge_node si nsi a b).moreChild = some b)
          ∧ (nsi < si → (merge_node si nsi a b).lessChild = some b
            ∧ (merge_node si nsi a b).moreChild = some a)) := by
  obtain ⟨wmin, w2, m1, m2, m3, m4, m5, m6, m7⟩ :=
    find_smallest_spec st (exists_two_active h2)
  obtain ⟨a, ha, hac⟩ := actWeight_eq_some.mp m1
  obtain ⟨b, hb, hbc⟩ := actWeight_eq_some.mp m5
  have hne : (find_smallest st).1 ≠ (find_smallest st).2 := fun e => m4 e.symm
  have hle : a.count ≤ b.count := by
    rw [hac, hbc]
    exact m2 (find_smallest st).2 w2 m5
  refine ⟨(find_smallest st).1, (find_smallest st).2, a, b, rfl, hne, ha, hb, ?_,
    ?_, ?_⟩
  · rw [build_step_eq r Prod.mk.eta.symm ha hb]
  · intro hne2
    have hlt : a.count < b.count := Nat.lt_of_le_of_ne hle hne2
    refine ⟨hlt, ?_, ?_⟩ <;> simp [merge_node, hne2, HTree.lessChild, HTree.moreChild]
  · intro heq2
    constructor
    · intro hlt
      constructor <;>
        simp [merge_node, heq2, hlt, HTree.lessChild, HTree.moreChild]
    · intro hlt
      have : ¬ (find_smallest st).1 < (find_smallest st).2 := by omega
      constructor <;>
        simp [merge_node, heq2, this, HTree.lessChild, HTree.moreChild]

/-- Witness for C3 on a concrete active set with an equal-weight tie. -/
theorem claim_C3_witness :
    ∃ si nsi a b,
      find_smallest tieSt = (si, nsi) ∧ si ≠ nsi
      ∧ tieSt.getD si none = some a ∧ tieSt.getD nsi none = some b
      ∧ (build_step (tieSt, none)).2 = some (merge_node si nsi a b)
      ∧ (a.count ≠ b.count →
          a.count < b.count
          ∧ (merge_node si nsi a b).lessChild = some a
          ∧ (merge_node si nsi a b).moreChild = some b)
      ∧ (a.count = b.count →
          (si < nsi → (merge_node si nsi a b).lessChild = some a
            ∧ (merge_node si nsi a b).moreChild = some b)
          ∧ (nsi < si → (merge_node si nsi a b).lessChild = some b
            ∧ (merge_node si nsi a b).moreChild = some a)) :=
  claim_C3_child_assignment tieSt none (by decide)

/-- C4, counterexample: on the scenario input `A A A A A A B B B C C`
the derived code of C is not `00` (the 253 zero-count byte values also
receive codes, which pushes C one level deeper). -/
theorem claim_C4_counterexample :
    build_codes (tree_of fC4) 67 ≠ [false, false] := by
  rw [tree_of_fC4, code_C]
  simp

/-- C4, amended.  For the input byte sequence `A A A A A A B B B C C`
(counts A=6, B=3, C=2, total 11), the first merge combines the
zero-weight leaves 0 and 1; the 253 zero-count byte values are folded
into a single weight-0 subtree which then merges with C(2) as its
`moreChild`, then B(3), and the final merge produces the weight-11 root
with the weight-5 node as `lessChild` and A as `moreChild`; the derived
codes are code(A)=1, code(B)=01 and code(C)=001. -/
theorem claim_C4_amended :
    tree_of fC4 = HTree.node 11 (HTree.node 5 (HTree.node 2 (zchain2 188)
        (HTree.leaf 67 2)) (HTree.leaf 66 3)) (HTree.leaf 65 6)
    ∧ (zchain2 188).count = 0
    ∧ build_codes (tree_of fC4) 65 = [true]
    ∧ build_codes (tree_of fC4) 66 = [false, true]
    ∧ build_codes (tree_of fC4) 67 = [false, false, true]
    ∧ (build_step^[1] (init_actives fC4, none)).2
        = some (HTree.node 0 (HTree.leaf 0 0) (HTree.leaf 1 0))
    ∧ fC4 65 = 6 ∧ fC4 66 = 3 ∧ fC4 67 = 2 ∧ get_count_total fC4 = 11 := by
  refine ⟨by rw [tree_of_fC4]; rfl, zchain2_count 188,
    by rw [tree_of_fC4]; exact code_A,
    by rw [tree_of_fC4]; exact code_B,
    by rw [tree_of_fC4]; exact code_C, ?_,
    by decide, by decide, by decide, by decide⟩
  rw [phase1 1 (by omega)]
  simp [zchain]

/-- C5, counterexample: for the frequency table whose only non-zero
entry is symbol 0, the built tree's root is not a leaf — all 256 slots
are merged, so the root is an internal node. -/
theorem claim_C5_counterexample : ¬ ∃ s c, tree_of f0 = HTree.leaf s c := by
  obtain ⟨_, ⟨w, l, m, hnode⟩, _⟩ := tree_of_spec f0
  rintro ⟨s, c, hleaf⟩
  rw [hnode] at hleaf
  cases hleaf

/-- C5, amended.  For a frequency table in which exactly one symbol has
a non-zero count, tree construction still succeeds — but it produces a
full 256-leaf tree whose root is an internal node (the zero-weight
leaves participate in the merging), not a one-leaf tree. -/
theorem claim_C5_amended (f : Nat → Nat) (s : Nat)
    (hs : f s ≠ 0) (honly : ∀ i, i < 256 → i ≠ s → f i = 0) :
    ∃ t, build_tree f = some t ∧ (∃ w l m, t = HTree.node w l m)
      ∧ leafCount t = 256 := by
  obtain ⟨t, h1, h2, h3⟩ := build_tree_spec f
  have ht : tree_of f = t := by
    rw [tree_of, h1]
    rfl
  refine ⟨t, h1, h2, ?_⟩
  rw [← ht]
  exact leafCount_tree_of f

/-- Witness for the amended C5 at the concrete single-symbol table. -/
theorem claim_C5_witness :
    ∃ t, build_tree f0 = some t ∧ (∃ w l m, t = HTree.node w l m)
      ∧ leafCount t = 256 :=
  claim_C5_amended f0 0 (by decide) (by decide)

/-- C6.  Prefix-freeness: for every frequency table and every pair of
distinct symbols `a ≠ b` both having non-zero weight, the derived code
of `a` is not a prefix of the derived code of `b`. -/
theorem claim_C6_prefix_free (f : Nat → Nat) (a b : Nat)
    (hab : a ≠ b) (ha : a < 256) (hb : b < 256)
    (hwa : f a ≠ 0) (hwb : f b ≠ 0) :
    ¬ build_codes (tree_of f) a <+: build_codes (tree_of f) b := by
  obtain ⟨pa, hpa⟩ := mem_find_path (mem_syms_tree f ha)
  obtain ⟨pb, hpb⟩ := mem_find_path (mem_syms_tree f hb)
  rw [build_codes_eq hpa, build_codes_eq hpb]
  exact find_path_prefix_free (syms_tree_nodup f) hab hpa hpb

/-- Witness for C6 on the scenario histogram with symbols A and B. -/
theorem claim_C6_witness :
    ¬ build_codes (tree_of fC4) 65 <+: build_codes (tree_of fC4) 66 :=
  claim_C6_prefix_free fC4 65 66 (by decide) (by decide) (by decide)
    (by decide) (by decide)

/-- C7.  Full-tree invariant: for every frequency table, the built tree
over the 256 leaves has exactly 255 internal nodes, and every node is
either a leaf with no children or an internal node with exactly two
children. -/
theorem claim_C7_full_tree (f : Nat → Nat) :
    internals (tree_of f) = 255 ∧ leafCount (tree_of f) = 256
      ∧ ∀ u ∈ subtrees (tree_of f), childArity u = 0 ∨ childArity u = 2 := by
  have h := leafCount_tree_of f
  have h2 := internals_add_one (tree_of f)
  exact ⟨by omega, h, subtrees_arity _⟩

/-- C8.  Decode state machine: processing one bit moves the walker to
`moreChild` on bit 1 and `lessChild` on bit 0; `code_finished` reports
the leaf's byte value on a leaf and nothing on an internal node; when
the walker lands on a leaf it emits that leaf's symbol and continues
from the root, and when it lands on an internal node it continues from
that node. -/
theorem claim_C8_walker :
    (∀ w l m, process_bit (HTree.node w l m) true = some m
      ∧ process_bit (HTree.node w l m) false = some l)
    ∧ (∀ s c, code_finished (HTree.leaf s c) = some s)
    ∧ (∀ w l m, code_finished (HTree.node w l m) = none)
    ∧ (∀ (root : HTree) (w : Nat) (l m : HTree) (b : Bool) (s c count total : Nat)
        (bs : List Bool),
        process_bit (HTree.node w l m) b = some (HTree.leaf s c) →
        decode_loop root (HTree.node w l m) count total (b :: bs)
          = s :: (if count + 1 = total then []
              else decode_loop root root (count + 1) total bs))
    ∧ (∀ (root : HTree) (w : Nat) (l m : HTree) (b : Bool) (w2 : Nat)
        (l2 m2 : HTree) (count total : Nat) (bs : List Bool),
        process_bit (HTree.node w l m) b = some (HTree.node w2 l2 m2) →
        decode_loop root (HTree.node w l m) count total (b :: bs)
          = decode_loop root (HTree.node w2 l2 m2) count total bs) := by
  refine ⟨fun w l m => ⟨rfl, rfl⟩, fun s c => rfl, fun w l m => rfl, ?_, ?_⟩
  · intro root w l m b s c count total bs hpb
    rw [decode_loop_cons, hpb]
    dsimp only [code_finished]
    split <;> rfl
  · intro root w l m b w2 l2 m2 count total bs hpb
    rw [decode_loop_cons, hpb]
    rfl

/-- C9, counterexample: decompression does not emit exactly
`get_count_total` symbols for every bitstream — on the scenario table
(total 11) the empty bitstream produces no output at all. -/
theorem claim_C9_counterexample :
    ¬ (decompress fC4 []).length = get_count_total fC4 := by
  rw [decompress, decode_loop_nil]
  decide

/-- C9, amended.  For a non-empty frequency table (`get_count_total()`
at least 1 — the decoder's stop test `++count == total_count` never
fires when the total is 0, and then the walk emits one symbol per
completed code past the total): decompression never emits more than
`get_count_total()` symbols, and whenever a bitstream already makes it
emit exactly that many, any trailing padding appended to the stream is
ignored — the output is unchanged and still has exactly
`get_count_total()` symbols. -/
theorem claim_C9_amended (f : Nat → Nat) (bs pad : List Bool)
    (h1 : 1 ≤ get_count_total f) :
    (∀ bs2 : List Bool, (decompress f bs2).length ≤ get_count_total f)
      ∧ ((decompress f bs).length = get_count_total f →
          decompress f (bs ++ pad) = decompress f bs
            ∧ (decompress f (bs ++ pad)).length = get_count_total f) := by
  constructor
  · intro bs2
    have := decode_loop_length_le (tree_of f) bs2 (tree_of f) 0
      (get_count_total f) (by omega)
    rw [decompress]
    omega
  · intro h2
    have hpad : decompress f (bs ++ pad) = decompress f bs := by
      rw [decompress, decompress]
      exact decode_loop_pad (tree_of f) bs pad (tree_of f) 0 (get_count_total f)
        (by omega) (by rw [decompress] at h2; omega)
    exact ⟨hpad, by rw [hpad]; exact h2⟩

/-- Witness for the amended C9: the scenario table (total 11), the
encoded scenario input, and one extra padding bit. -/
theorem claim_C9_witness :
    (∀ bs2 : List Bool, (decompress fC4 bs2).length ≤ get_count_total fC4)
      ∧ ((decompress fC4 (compress fC4 xC4)).length = get_count_total fC4 →
          decompress fC4 (compress fC4 xC4 ++ [true])
              = decompress fC4 (compress fC4 xC4)
            ∧ (decompress fC4 (compress fC4 xC4 ++ [true])).length
                = get_count_total fC4) :=
  claim_C9_amended fC4 (compress fC4 xC4) [true] (by decide)

/-- C10.  For every frequency table — including the all-zero table and
tables with a single non-zero symbol — tree construction performs all
255 merges over the 256 slots (one active slot remains at the end), so
the root is never a leaf and every one of the 256 symbols receives a
non-empty code. -/
theorem claim_C10_all_merge (f : Nat → Nat) (s : Nat) (hs : s < 256) :
    (∃ w l m, build_tree f = some (HTree.node w l m))
      ∧ numActive (build_step^[255] (init_actives f, none)).1 = 1
      ∧ 1 ≤ (build_codes (tree_of f) s).length := by
  obtain ⟨h1, ⟨w, l, m, hnode⟩, hsyms⟩ := tree_of_spec f
  refine ⟨⟨w, l, m, by rw [h1, hnode]⟩, ?_, ?_⟩
  · obtain ⟨st, r, hit, hI, _⟩ := build_run f 255 (Nat.le_refl 255)
    rw [hit]
    show numActive st = 1
    have := hI.act
    omega
  · obtain ⟨p, hp⟩ := mem_find_path (mem_syms_tree f hs)
    have hne : p ≠ [] := by
      rw [hnode] at hp
      exact find_path_node_ne_nil hp
    rw [build_codes_eq hp]
    exact List.length_pos.mpr hne

/-- Witness for C10 at the all-zero table and symbol 255. -/
theorem claim_C10_witness :
    (∃ w l m, build_tree fzero = some (HTree.node w l m))
      ∧ numActive (build_step^[255] (init_actives fzero, none)).1 = 1
      ∧ 1 ≤ (build_codes (tree_of fzero) 255).length :=
  claim_C10_all_merge fzero 255 (by decide)

end Huffman
